import Mathlib

/-!
# Gas Town (gastown-rusted) — verification of the workflow state machines

Shallow embedding of the durable workflow state machines of the
`gastown-rusted` repository (crates `gtr-temporal` and `gtr-core`), together
with proofs about the properties claimed of them.

Modelling conventions, shared by all sections:

* Each workflow (`work_item_wf`, `molecule_wf`, `mayor_wf`, `rig_wf`,
  `polecat_wf`, `refinery_wf`) is a single-threaded loop that blocks on a
  `select!` over signal channels (and timers / activity results).  We embed
  each workflow as a pure step function from one *event* (a signal delivery,
  a timer firing, or an activity outcome) to the next state, and a run
  function folding the step function over a list of events.  Each `select!`
  arm handles exactly one signal per iteration, so a run over an arbitrary
  event list reaches exactly the reachable states of the workflow.
* Signal payloads arrive as JSON and the Rust code deserializes them inside
  the handler, ignoring the signal when deserialization fails.  We model a
  payload as `Option p`: `none` is an undeserializable payload, `some x` a
  payload that parses to `x`.
* Activity results (`completed_ok`, success payloads) are external
  nondeterminism; we pass them in as explicit oracle data.
* Rust `String` is `String`, `Option<T>` is `Option T`, `Vec<T>` is
  `List T`, `u8`/`u32`/`usize` values that are only compared (never
  overflowed) are `Nat`.
-/

/-- Result of one workflow loop iteration: keep looping in state `σ`, or
return from the workflow with result `τ`. -/
inductive StepRes (σ : Type) (τ : Type) where
  | cont (s : σ)
  | exit (t : τ)
deriving Repr, DecidableEq

namespace GasTown

/-! ## WorkItem workflow — `crates/gtr-temporal/src/workflows/work_item.rs`

State variables of `work_item_wf`: `status : String` (starting `"pending"`),
`assigned_to : Option<String>` (starting `None`) and
`escalation_level : u32` (starting `0`).  On `complete`/`fail`/`close` the
workflow returns a serialized `WorkItemState`.
-/

/-- `WorkItemState` (signals.rs) — the value emitted when the workflow
terminates. -/
structure WorkItemState where
  id : String
  title : String
  status : String
  assigned_to : Option String
deriving Repr, DecidableEq

/-- The mutable state of the `work_item_wf` loop. -/
structure WIState where
  status : String
  assigned_to : Option String
  escalation_level : Nat
deriving Repr, DecidableEq

/-- Initial state of `work_item_wf` (work_item.rs lines 22–24). -/
def wiInit : WIState := { status := "pending", assigned_to := none, escalation_level := 0 }

/-- One event consumed by one iteration of the `work_item_wf` signal loop:
one of the eight signals, or the 4-hour staleness timer firing.  Payload-
carrying signals hold `none` when the payload fails to deserialize. -/
inductive WIEvent where
  | assign (payload : Option String)     -- `AssignSignal { agent_id }`
  | start
  | complete
  | fail (payload : Option String)       -- `FailSignal { reason }`
  | close
  | release
  | heartbeat
  | escalate
  | staleTimer
deriving Repr, DecidableEq

/-- `handle_assign` (work_item.rs lines 189–204): from `pending` with a
deserializable payload, record the assignee and move to `assigned`. -/
def handle_assign (s : WIState) (payload : Option String) : WIState :=
  if s.status = "pending" then
    match payload with
    | some agent_id => { s with assigned_to := some agent_id, status := "assigned" }
    | none => s
  else s

/-- One iteration of the `work_item_wf` signal loop (work_item.rs lines
39–186).  The two `select!` blocks (with and without the staleness timer)
have identical signal arms except that `start` and `release` reset
`escalation_level` only in the timer block; since those arms only fire from
`assigned`/`in_progress` — exactly the statuses that select the timer block —
the two blocks fold into one step function.  The timer event can only be
delivered while `use_timer` holds (`status ∈ {assigned, in_progress}`). -/
def wiStep (id title : String) (s : WIState) (ev : WIEvent) : StepRes WIState WorkItemState :=
  match ev with
  | .assign payload => .cont (handle_assign s payload)
  | .start =>
      if s.status = "assigned" then
        .cont { s with status := "in_progress", escalation_level := 0 }
      else .cont s
  | .complete =>
      if s.status = "in_progress" ∨ s.status = "assigned" then
        .exit { id := id, title := title, status := "done", assigned_to := s.assigned_to }
      else .cont s
  | .fail payload =>
      match payload with
      | some _reason =>
          .exit { id := id, title := title, status := "failed", assigned_to := s.assigned_to }
      | none => .cont s
  | .close =>
      .exit { id := id, title := title, status := "closed", assigned_to := s.assigned_to }
  | .release =>
      if s.status = "assigned" ∨ s.status = "in_progress" then
        .cont { s with assigned_to := none, status := "pending", escalation_level := 0 }
      else .cont s
  | .heartbeat => .cont s
  | .escalate => .cont { s with escalation_level := s.escalation_level + 1 }
  | .staleTimer =>
      if s.status = "in_progress" ∨ s.status = "assigned" then
        .cont { s with escalation_level := s.escalation_level + 1 }
      else .cont s

/-- Run `work_item_wf` from state `s` over a list of delivered events,
stopping at the first event that makes the workflow return. -/
def wiRun (id title : String) (s : WIState) : List WIEvent → StepRes WIState WorkItemState
  | [] => .cont s
  | ev :: rest =>
      match wiStep id title s ev with
      | .cont s' => wiRun id title s' rest
      | .exit t => .exit t

/-- The invariant claimed of WorkItem states:
`assigned_to.is_some() ⇔ status ∈ {assigned, in_progress}`. -/
def wiInv (status : String) (assigned_to : Option String) : Prop :=
  assigned_to.isSome = true ↔ (status = "assigned" ∨ status = "in_progress")

theorem wiStep_cont_inv (id title : String) (s s' : WIState) (ev : WIEvent)
    (hs : wiInv s.status s.assigned_to)
    (h : wiStep id title s ev = .cont s') : wiInv s'.status s'.assigned_to := by
  cases ev with
  | assign payload =>
      simp only [wiStep, StepRes.cont.injEq] at h
      subst h
      unfold handle_assign
      split
      · next hpend =>
          cases payload with
          | some a => simp [wiInv]
          | none => exact hs
      · exact hs
  | start =>
      simp only [wiStep] at h
      split at h <;> cases h
      · next hst =>
          have : s.assigned_to.isSome = true := hs.mpr (Or.inl hst)
          simp only [wiInv] at *
          simpa using this
      · exact hs
  | complete =>
      simp only [wiStep] at h
      split at h <;> cases h
      exact hs
  | fail payload =>
      cases payload <;> simp only [wiStep] at h <;> cases h
      exact hs
  | close => simp only [wiStep] at h; cases h
  | release =>
      simp only [wiStep] at h
      split at h <;> cases h
      · simp [wiInv]
      · exact hs
  | heartbeat => simp only [wiStep] at h; cases h; exact hs
  | escalate =>
      simp only [wiStep] at h; cases h
      simpa [wiInv] using hs
  | staleTimer =>
      simp only [wiStep] at h
      split at h <;> cases h <;> simpa [wiInv] using hs

theorem wiRun_cont_inv (id title : String) (s s' : WIState) (evs : List WIEvent)
    (hs : wiInv s.status s.assigned_to)
    (h : wiRun id title s evs = .cont s') : wiInv s'.status s'.assigned_to := by
  induction evs generalizing s with
  | nil => simp only [wiRun, StepRes.cont.injEq] at h; subst h; exact hs
  | cons ev rest ih =>
      simp only [wiRun] at h
      cases hstep : wiStep id title s ev with
      | cont s1 =>
          rw [hstep] at h
          exact ih s1 (wiStep_cont_inv id title s s1 ev hs hstep) h
      | exit t => rw [hstep] at h; cases h

/-- **C2 counterexample.**  The claim extends the invariant to the terminal
states the workflow emits; but the terminal state emitted by the
done-happy-path run (`assign "mayor"`, `start`, `complete`) has
`status = "done"` together with `assigned_to = some "mayor"`, so
`assigned_to` is `Some` while `status ∉ {assigned, in_progress}`. -/
theorem workItem_terminal_inv_counterexample :
    wiRun "wi-1" "fix-x" wiInit [.assign (some "mayor"), .start, .complete] =
      .exit { id := "wi-1", title := "fix-x", status := "done", assigned_to := some "mayor" } ∧
    ¬ wiInv "done" (some "mayor") := by
  constructor
  · rfl
  · intro h
    have := h.mp rfl
    rcases this with h1 | h1 <;> simp at h1

/-- **C2 (amended).**  In every reachable *live* state of the WorkItem state
machine — every state the signal loop can be in — `assigned_to` is `Some`
iff `status ∈ {assigned, in_progress}`.  (The terminal `WorkItemState`
values emitted on completion, failure and close keep the last assignee, so
the invariant does not extend to them; see the counterexample.) -/
theorem workItem_live_inv (id title : String) (evs : List WIEvent) (s : WIState)
    (h : wiRun id title wiInit evs = .cont s) :
    s.assigned_to.isSome = true ↔ (s.status = "assigned" ∨ s.status = "in_progress") :=
  wiRun_cont_inv id title wiInit s evs (by simp [wiInv, wiInit]) h

/-- Witness for `workItem_live_inv` at a concrete run. -/
theorem workItem_live_inv_witness :
    (some "mayor" : Option String).isSome = true ↔
      ("assigned" = "assigned" ∨ ("assigned" : String) = "in_progress") := by
  have h : wiRun "wi-1" "fix-x" wiInit [.assign (some "mayor")] =
      .cont { status := "assigned", assigned_to := some "mayor", escalation_level := 0 } := rfl
  exact workItem_live_inv "wi-1" "fix-x" [.assign (some "mayor")]
    { status := "assigned", assigned_to := some "mayor", escalation_level := 0 } h

/-- **C3.**  Done-happy-path: starting WorkItem `wi-1` titled `fix-x`, then
`assign{agent_id="mayor"}`, `start`, `complete`, terminates the workflow
with emitted state `{id: wi-1, title: fix-x, status: done, assigned_to:
mayor}`. -/
theorem workItem_done_happy_path :
    wiRun "wi-1" "fix-x" wiInit [.assign (some "mayor"), .start, .complete] =
      .exit { id := "wi-1", title := "fix-x", status := "done", assigned_to := some "mayor" } := by
  rfl

/-! ## Molecule workflow — `crates/gtr-temporal/src/workflows/molecule.rs`

`molecule_wf` tracks a list of steps; each loop iteration first checks
whether every step is `done`/`failed` (terminating with `completed` or
`failed`), then selects over the five molecule signals.
-/

/-- `MolStepState` — per-step tracking record (constructed in molecule.rs
lines 18–26 and mutated by the signal handlers). -/
structure MolStepState where
  ref_id : String
  title : String
  status : String
  output : Option String
deriving Repr, DecidableEq

/-- `MoleculeState` — the value serialized when the workflow returns
(molecule.rs lines 120–126). -/
structure MoleculeState where
  id : String
  formula_name : String
  status : String
  steps : List MolStepState
  current_step : Option String
deriving Repr, DecidableEq

/-- The mutable state of the `molecule_wf` loop. -/
structure MolState where
  status : String
  steps : List MolStepState
  current_step : Option String
deriving Repr, DecidableEq

/-- Initial state (molecule.rs lines 18–34): every named step starts
`pending`, `current_step` is the first step's id, then the first step is
marked `in_progress`. -/
def molInit (step_names : List String) : MolState :=
  let steps : List MolStepState := step_names.map fun name =>
    { ref_id := name, title := name, status := "pending", output := none }
  { status := "running"
    steps := match steps with
             | [] => []
             | s :: rest => { s with status := "in_progress" } :: rest
    current_step := steps.head?.map (·.ref_id) }

/-- One event consumed by one iteration of the `molecule_wf` signal loop. -/
inductive MolEvent where
  | step_done (payload : Option (String × Option String))  -- `{ step_ref, output }`
  | step_fail (payload : Option (String × String))         -- `{ step_ref, reason }`
  | pause
  | resume
  | cancel
deriving Repr, DecidableEq

/-- `steps.iter_mut().find(pred)` followed by a mutation of the found
element: rewrite the first element satisfying `p` with `f`. -/
def updateFirst (p : α → Bool) (f : α → α) : List α → List α
  | [] => []
  | x :: xs => if p x then f x :: xs else x :: updateFirst p f xs

/-- The advance loop of the `mol_step_done` handler (molecule.rs lines
88–96): promote the first `pending` step to `in_progress` and return the
new list together with the new `current_step`. -/
def promoteFirstPending (l : List MolStepState) : List MolStepState × Option String :=
  (updateFirst (fun st => st.status == "pending")
      (fun st => { st with status := "in_progress" }) l,
   (l.find? (fun st => st.status == "pending")).map (·.ref_id))

/-- The `select!` body of `molecule_wf` (molecule.rs lines 57–117): one
signal per iteration.  `exit` carries the final `MolState` (status already
set to the terminal value) for `cancel` and parsed `mol_step_fail`. -/
def molHandle (s : MolState) (ev : MolEvent) : StepRes MolState MolState :=
  match ev with
  | .cancel => .exit { s with status := "cancelled" }
  | .pause => if s.status = "running" then .cont { s with status := "paused" } else .cont s
  | .resume => if s.status = "paused" then .cont { s with status := "running" } else .cont s
  | .step_done payload =>
      if s.status ≠ "running" then .cont s
      else match payload with
        | none => .cont s
        | some (step_ref, output) =>
            let marked := updateFirst (fun st => st.ref_id == step_ref)
              (fun st => { st with status := "done", output := output }) s.steps
            let (steps', current') := promoteFirstPending marked
            .cont { s with steps := steps', current_step := current' }
  | .step_fail payload =>
      if s.status ≠ "running" then .cont s
      else match payload with
        | none => .cont s
        | some (step_ref, reason) =>
            let steps' := updateFirst (fun st => st.ref_id == step_ref)
              (fun st => { st with status := "failed", output := some reason }) s.steps
            .exit { s with status := "failed", steps := steps' }

/-- The all-steps-terminal check at the top of each loop iteration
(molecule.rs lines 46–55). -/
def molAllTerminal (s : MolState) : Bool :=
  s.steps.all fun st => st.status == "done" || st.status == "failed"

/-- Build the returned `MoleculeState` from the final loop state. -/
def molFinalize (id formula_name : String) (s : MolState) : MoleculeState :=
  { id := id, formula_name := formula_name, status := s.status,
    steps := s.steps, current_step := s.current_step }

/-- Run `molecule_wf` over a list of delivered events.  Each iteration
first performs the all-terminal check, then (if the event list is
non-empty) consumes one event. -/
def molRun (id formula_name : String) (s : MolState) : List MolEvent → StepRes MolState MoleculeState
  | [] =>
      if molAllTerminal s then
        .exit (molFinalize id formula_name
          { s with status := if s.steps.all (fun st => st.status == "done")
                             then "completed" else "failed" })
      else .cont s
  | ev :: rest =>
      if molAllTerminal s then
        .exit (molFinalize id formula_name
          { s with status := if s.steps.all (fun st => st.status == "done")
                             then "completed" else "failed" })
      else match molHandle s ev with
        | .cont s' => molRun id formula_name s' rest
        | .exit t => .exit (molFinalize id formula_name t)

/-- Number of steps currently `in_progress`. -/
def countInProgress (l : List MolStepState) : Nat :=
  l.countP fun st => st.status == "in_progress"

/-! Generic lemmas about `updateFirst`. -/

theorem updateFirst_of_find?_eq_none (p : α → Bool) (f : α → α) (l : List α)
    (h : l.find? p = none) : updateFirst p f l = l := by
  induction l with
  | nil => rfl
  | cons y ys ih =>
      rw [List.find?_cons] at h
      cases hy : p y with
      | true => rw [hy] at h; cases h
      | false =>
          rw [hy] at h
          simp only [updateFirst, hy, if_neg Bool.false_ne_true, cond_false]
          rw [ih h]

theorem countP_updateFirst (p : α → Bool) (f : α → α) (q : α → Bool) (l : List α) (x : α)
    (h : l.find? p = some x) :
    (updateFirst p f l).countP q =
      l.countP q - (if q x then 1 else 0) + (if q (f x) then 1 else 0) := by
  induction l with
  | nil => cases h
  | cons y ys ih =>
      rw [List.find?_cons] at h
      cases hy : p y with
      | true =>
          rw [hy] at h
          injection h with h; subst h
          simp only [updateFirst, hy, if_pos, List.countP_cons]
          omega
      | false =>
          rw [hy] at h
          simp only [updateFirst, hy, Bool.false_eq_true, if_false, List.countP_cons, ih h]
          have hle : (if q x then 1 else 0) ≤ ys.countP q := by
            split
            · next hq =>
                have hmem := List.mem_of_find?_eq_some h
                have := List.countP_pos_iff (p := q) (l := ys) |>.mpr ⟨x, hmem, hq⟩
                omega
            · omega
          omega

theorem find?_updateFirst_found (p : α → Bool) (f : α → α) (l : List α) (x : α)
    (h : l.find? p = some x) (hf : p (f x) = true) :
    (updateFirst p f l).find? p = some (f x) := by
  induction l with
  | nil => cases h
  | cons y ys ih =>
      rw [List.find?_cons] at h
      cases hy : p y with
      | true =>
          rw [hy] at h
          injection h with h; subst h
          simp only [updateFirst, hy, if_pos]
          rw [List.find?_cons, hf]
      | false =>
          rw [hy] at h
          simp only [updateFirst, hy, Bool.false_eq_true, if_false]
          rw [List.find?_cons, hy]
          exact ih h

theorem find?_updateFirst_untouched (p q : α → Bool) (g : α → α) (l : List α) (x : α)
    (h : l.find? p = some x) (hqx : q x = false) (hpg : ∀ y, p (g y) = p y) :
    (updateFirst q g l).find? p = some x := by
  induction l with
  | nil => cases h
  | cons y ys ih =>
      rw [List.find?_cons] at h
      cases hy : p y with
      | true =>
          rw [hy] at h
          injection h with h; subst h
          simp only [updateFirst, hqx, Bool.false_eq_true, if_false]
          rw [List.find?_cons, hy]
      | false =>
          rw [hy] at h
          simp only [updateFirst]
          cases hq : q y with
          | true =>
              rw [if_pos rfl]
              rw [List.find?_cons, hpg y, hy]
              exact h
          | false =>
              simp only [hq, Bool.false_eq_true, if_false]
              rw [List.find?_cons, hy]
              exact ih h

/-- A run event is *protocol-respecting* when every parsed `mol_step_done`
delivered while the molecule is running names the step that is currently
`in_progress` (more precisely: the first step carrying the signalled
`step_ref` is the one in progress). -/
def molGoodEv (s : MolState) (ev : MolEvent) : Prop :=
  ∀ r out, ev = MolEvent.step_done (some (r, out)) → s.status = "running" →
    ∃ st, s.steps.find? (fun t => t.ref_id == r) = some st ∧ st.status = "in_progress"

/-- Every event of the run is protocol-respecting for the state in which it
is consumed (events after the workflow returns are unconstrained). -/
def MolGoodRun (s : MolState) : List MolEvent → Prop
  | [] => True
  | ev :: rest =>
      molAllTerminal s = true ∨
        (molGoodEv s ev ∧
          match molHandle s ev with
          | .cont s' => MolGoodRun s' rest
          | .exit _ => True)

theorem molHandle_cont_count (s : MolState) (ev : MolEvent) (s' : MolState)
    (hinv : countInProgress s.steps ≤ 1) (hgood : molGoodEv s ev)
    (h : molHandle s ev = .cont s') : countInProgress s'.steps ≤ 1 := by
  cases ev with
  | cancel => cases h
  | pause =>
      simp only [molHandle] at h
      split at h <;> (cases h; exact hinv)
  | resume =>
      simp only [molHandle] at h
      split at h <;> (cases h; exact hinv)
  | step_fail payload =>
      simp only [molHandle] at h
      split at h
      · cases h; exact hinv
      · cases payload with
        | none => cases h; exact hinv
        | some pr => cases h
  | step_done payload =>
      simp only [molHandle] at h
      split at h
      · cases h; exact hinv
      · next hrun =>
          cases payload with
          | none => cases h; exact hinv
          | some pr =>
              obtain ⟨r, out⟩ := pr
              obtain ⟨st, hfind, hip⟩ := hgood r out rfl (by simpa using hrun)
              simp only [promoteFirstPending, StepRes.cont.injEq] at h
              subst h
              have hge1 : 1 ≤ s.steps.countP (fun t => t.status == "in_progress") := by
                have hmem := List.mem_of_find?_eq_some hfind
                have := (List.countP_pos_iff
                  (p := fun (t : MolStepState) => t.status == "in_progress")
                  (l := s.steps)).mpr ⟨st, hmem, by simp [hip]⟩
                omega
              have hcm : (updateFirst (fun t => t.ref_id == r)
                  (fun t => { t with status := "done", output := out })
                    s.steps).countP (fun t => t.status == "in_progress") =
                  s.steps.countP (fun t => t.status == "in_progress") - 1 := by
                rw [countP_updateFirst _ _ _ _ _ hfind]
                simp [hip]
              set marked := updateFirst (fun t => t.ref_id == r)
                  (fun t => { t with status := "done", output := out }) s.steps with hm
              unfold countInProgress at hinv ⊢
              cases hpend : marked.find? (fun t => t.status == "pending") with
              | none =>
                  rw [updateFirst_of_find?_eq_none _ _ _ hpend]
                  show List.countP (fun st => st.status == "in_progress") marked ≤ 1
                  omega
              | some y =>
                  rw [countP_updateFirst _ _ _ _ _ hpend]
                  have hpy : (y.status == "pending") = true := by
                    have := List.find?_some hpend; simpa using this
                  have hyip : (y.status == "in_progress") = false := by
                    rw [beq_iff_eq] at hpy
                    rw [hpy]; decide
                  simp only [hyip, Bool.false_eq_true, if_false]
                  simp only [show (({ y with status := "in_progress" } :
                    MolStepState).status == "in_progress") = true from rfl, if_pos]
                  omega

theorem molRun_cont_count (id formula_name : String) (evs : List MolEvent) (s s' : MolState)
    (hinv : countInProgress s.steps ≤ 1) (hgood : MolGoodRun s evs)
    (h : molRun id formula_name s evs = .cont s') : countInProgress s'.steps ≤ 1 := by
  induction evs generalizing s with
  | nil =>
      simp only [molRun] at h
      split at h
      · cases h
      · cases h; exact hinv
  | cons ev rest ih =>
      simp only [molRun] at h
      split at h
      · cases h
      · next hterm =>
          rcases hgood with hg | ⟨hgev, hgrest⟩
          · exact absurd hg (by simpa using hterm)
          · cases hstep : molHandle s ev with
            | cont s1 =>
                rw [hstep] at h hgrest
                exact ih s1 (molHandle_cont_count s ev s1 hinv hgev hstep) hgrest h
            | exit t => rw [hstep] at h; cases h

theorem countInProgress_molInit (names : List String) :
    countInProgress (molInit names).steps ≤ 1 := by
  cases names with
  | nil => simp [molInit, countInProgress]
  | cons n ns =>
      simp only [molInit, countInProgress, List.map_cons, List.countP_cons]
      have : (List.countP (fun st => st.status == "in_progress")
          (ns.map fun name =>
            ({ ref_id := name, title := name, status := "pending", output := none } :
              MolStepState))) = 0 := by
        rw [List.countP_eq_zero]
        intro a ha
        obtain ⟨nm, _, rfl⟩ := List.mem_map.mp ha
        exact (by decide : ¬ (("pending" : String) == "in_progress") = true)
      simp [this]

/-- **C6 counterexample.**  From a `running` Molecule with steps
`[a (in_progress), b (pending), c (pending)]`, a `mol_step_done` naming the
non-current step `b` marks `b` done and still promotes the first pending
step `c`, leaving *two* steps `in_progress` (`a` and `c`) while the status
remains `running`. -/
theorem molecule_single_inprogress_counterexample :
    molRun "m" "f" (molInit ["a", "b", "c"]) [.step_done (some ("b", none))] =
      .cont { status := "running"
              steps := [{ ref_id := "a", title := "a", status := "in_progress", output := none },
                        { ref_id := "b", title := "b", status := "done", output := none },
                        { ref_id := "c", title := "c", status := "in_progress", output := none }]
              current_step := some "c" } ∧
    ¬ countInProgress
        [{ ref_id := "a", title := "a", status := "in_progress", output := none },
         { ref_id := "b", title := "b", status := "done", output := none },
         { ref_id := "c", title := "c", status := "in_progress", output := none }] ≤ 1 := by
  exact ⟨rfl, by decide⟩

/-- **C6 (amended).**  In every run in which each parsed `mol_step_done`
delivered while running names the step currently `in_progress`, every
reachable live state has at most one step `in_progress`; and delivering such
a `mol_step_done` to a running reachable state marks the named step `done`
and promotes the next `pending` step (if any) to `in_progress` — afterwards
exactly `min 1 (number of pending steps)` steps are `in_progress`. -/
theorem molecule_running_single_inprogress
    (id formula_name : String) (names : List String) (evs : List MolEvent) (s : MolState)
    (hgood : MolGoodRun (molInit names) evs)
    (hrun : molRun id formula_name (molInit names) evs = .cont s) :
    countInProgress s.steps ≤ 1 ∧
    (∀ r out st, s.status = "running" →
      s.steps.find? (fun t => t.ref_id == r) = some st → st.status = "in_progress" →
      ∃ s', molHandle s (.step_done (some (r, out))) = .cont s' ∧
        (s'.steps.find? (fun t => t.ref_id == r)).map (·.status) = some "done" ∧
        countInProgress s'.steps = min 1 (s.steps.countP fun t => t.status == "pending")) := by
  have hinv : countInProgress s.steps ≤ 1 :=
    molRun_cont_count id formula_name evs (molInit names) s
      (countInProgress_molInit names) hgood hrun
  refine ⟨hinv, ?_⟩
  intro r out st hsrun hfind hip
  have hpr : (st.ref_id == r) = true := by
    have := List.find?_some hfind; simpa using this
  have hge1 : 1 ≤ countInProgress s.steps := by
    have hmem := List.mem_of_find?_eq_some hfind
    have := (List.countP_pos_iff
      (p := fun (t : MolStepState) => t.status == "in_progress")
      (l := s.steps)).mpr ⟨st, hmem, by simp [hip]⟩
    unfold countInProgress
    omega
  have hcount1 : s.steps.countP (fun t => t.status == "in_progress") = 1 :=
    le_antisymm hinv hge1
  set marked := updateFirst (fun t => t.ref_id == r)
      (fun t => { t with status := "done", output := out }) s.steps with hm
  refine Exists.intro { s with steps := (promoteFirstPending marked).1, current_step := (promoteFirstPending marked).2 } ⟨?_, ?_, ?_⟩
  · simp only [molHandle]
    rw [if_neg (by simp [hsrun])]
  · have hfm : marked.find? (fun t => t.ref_id == r) =
        some { st with status := "done", output := out } :=
      find?_updateFirst_found _ _ _ _ hfind (by simpa using hpr)
    have hfp : ((updateFirst (fun t => t.status == "pending")
        (fun t => { t with status := "in_progress" }) marked).find?
          (fun t => t.ref_id == r)) = some { st with status := "done", output := out } := by
      apply find?_updateFirst_untouched _ _ _ _ _ hfm
      · show (("done" : String) == "pending") = false
        decide
      · intro y; rfl
    simp only [promoteFirstPending]
    rw [hfp]
    rfl
  · have hcm : marked.countP (fun t => t.status == "in_progress") = 0 := by
      rw [hm, countP_updateFirst _ _ _ _ _ hfind]
      simp [hip, hcount1]
    have hpm : marked.countP (fun t => t.status == "pending") =
        s.steps.countP (fun t => t.status == "pending") := by
      rw [hm, countP_updateFirst _ _ _ _ _ hfind]
      simp [hip]
    simp only [promoteFirstPending, countInProgress]
    cases hpend : marked.find? (fun t => t.status == "pending") with
    | none =>
        rw [updateFirst_of_find?_eq_none _ _ _ hpend]
        have hzero : marked.countP (fun t => t.status == "pending") = 0 := by
          rw [List.countP_eq_zero]
          intro a ha hpa
          exact List.find?_eq_none.mp hpend a ha hpa
        rw [← hpm, hzero, hcm]
        decide
    | some y =>
        rw [countP_updateFirst _ _ _ _ _ hpend]
        have hpy : (y.status == "pending") = true := by
          have := List.find?_some hpend; simpa using this
        have hyip : (y.status == "in_progress") = false := by
          rw [beq_iff_eq] at hpy
          rw [hpy]; decide
        have hppos : 1 ≤ marked.countP (fun t => t.status == "pending") := by
          have hmem := List.mem_of_find?_eq_some hpend
          have := (List.countP_pos_iff
            (p := fun (t : MolStepState) => t.status == "pending")
            (l := marked)).mpr ⟨y, hmem, hpy⟩
          omega
        rw [← hpm, Nat.min_eq_left hppos]
        simp only [hyip, Bool.false_eq_true, if_false]
        simp only [show (({ y with status := "in_progress" } :
          MolStepState).status == "in_progress") = true from rfl, if_pos]
        omega

/-- Witness for `molecule_running_single_inprogress`: the run
`molInit ["a","b"]` then `mol_step_done "a"` reaches
`[a (done), b (in_progress)]`, which has one step in progress. -/
theorem molecule_running_single_inprogress_witness :
    countInProgress
      [{ ref_id := "a", title := "a", status := "done", output := none },
       { ref_id := "b", title := "b", status := "in_progress", output := none }] ≤ 1 := by
  have hgev : molGoodEv (molInit ["a", "b"]) (.step_done (some ("a", none))) := by
    intro r out heq _
    injection heq with h1
    injection h1 with h2
    injection h2 with hr hout
    subst hr
    exact ⟨{ ref_id := "a", title := "a", status := "in_progress", output := none }, rfl, rfl⟩
  have hgood : MolGoodRun (molInit ["a", "b"]) [.step_done (some ("a", none))] := by
    refine Or.inr ⟨hgev, ?_⟩
    show MolGoodRun _ []
    trivial
  exact (molecule_running_single_inprogress "m" "f" ["a", "b"]
    [.step_done (some ("a", none))] _ hgood rfl).1

/-- **C9.**  A Molecule started with an empty step list terminates
immediately — before consuming any signal — with status `completed` and
`current_step = None` (the all-steps-done check holds vacuously). -/
theorem molecule_empty_steps_completes (id formula_name : String) (evs : List MolEvent) :
    molRun id formula_name (molInit []) evs =
      .exit { id := id, formula_name := formula_name, status := "completed",
              steps := [], current_step := none } := by
  cases evs <;> rfl

/-! ## Mayor workflow — `crates/gtr-temporal/src/workflows/mayor.rs`

The singleton orchestrator.  State: `active_convoys : Vec<String>`,
`agents : Vec<MayorAgentEntry>`, `polecat_reports : Vec<PolecatReportSignal>`.
-/

/-- `PolecatReportSignal` — the payload of `SIGNAL_POLECAT_REPORT`, with the
fields constructed in polecat.rs lines 202–211 and consumed in mayor.rs
lines 75–89. -/
structure PolecatReportSignal where
  polecat_id : String
  name : String
  rig : String
  work_item_id : String
  branch : String
  status : String
  summary : Option String
  exit_reason : String
deriving Repr, DecidableEq

/-- `MayorAgentEntry` (signals.rs). -/
structure MayorAgentEntry where
  agent_id : String
  role : String
  status : String
  current_work : Option String
deriving Repr, DecidableEq

/-- `MayorState` — both the loop state of `mayor_wf` and the value emitted
on `mayor_stop`. -/
structure MayorState where
  active_convoys : List String
  agents : List MayorAgentEntry
  polecat_reports : List PolecatReportSignal
deriving Repr, DecidableEq

/-- Initial Mayor state (mayor.rs lines 7–9). -/
def mayorInit : MayorState := { active_convoys := [], agents := [], polecat_reports := [] }

/-- One signal consumed by one iteration of the `mayor_wf` loop. -/
inductive MayorEvent where
  | register (payload : Option (String × String))                 -- `{agent_id, role}`
  | unregister (payload : Option String)
  | status_update (payload : Option (String × String × Option String))
  | add_convoy (payload : Option String)                          -- `add_work_item`
  | convoy_closed (payload : Option String)
  | report (payload : Option PolecatReportSignal)
  | stop
deriving Repr, DecidableEq

/-- The `select!` body of `mayor_wf` (mayor.rs lines 21–101). -/
def mayorStep (s : MayorState) : MayorEvent → StepRes MayorState MayorState
  | .register payload =>
      match payload with
      | some (agent_id, role) =>
          if s.agents.any (fun a => a.agent_id == agent_id) then .cont s
          else .cont { s with agents := s.agents ++
              [{ agent_id := agent_id, role := role, status := "idle", current_work := none }] }
      | none => .cont s
  | .unregister payload =>
      match payload with
      | some agent_id => .cont { s with agents := s.agents.filter (fun a => a.agent_id != agent_id) }
      | none => .cont s
  | .status_update payload =>
      match payload with
      | some (agent_id, status, current_work) =>
          .cont { s with agents := (updateFirst (fun a => a.agent_id == agent_id)
              (fun a => { a with status := status, current_work := current_work }) s.agents) }
      | none => .cont s
  | .add_convoy payload =>
      match payload with
      | some convoy_id =>
          if s.active_convoys.contains convoy_id then .cont s
          else .cont { s with active_convoys := s.active_convoys ++ [convoy_id] }
      | none => .cont s
  | .convoy_closed payload =>
      match payload with
      | some convoy_id =>
          .cont { s with active_convoys := s.active_convoys.filter (fun c => c != convoy_id) }
      | none => .cont s
  | .report payload =>
      match payload with
      | some report =>
          .cont { s with
            agents := (updateFirst (fun a => a.agent_id == report.polecat_id)
              (fun a => { a with status := report.status, current_work := some report.work_item_id })
              s.agents),
            polecat_reports := s.polecat_reports ++ [report] }
      | none => .cont s
  | .stop => .exit s

/-- Run `mayor_wf` over a list of delivered signals. -/
def mayorRun (s : MayorState) : List MayorEvent → StepRes MayorState MayorState
  | [] => .cont s
  | ev :: rest =>
      match mayorStep s ev with
      | .cont s' => mayorRun s' rest
      | .exit t => .exit t

/-- The agent list held by a run result (live state or the emitted final
`MayorState` — `mayor_stop` returns the list unchanged). -/
def mayorAgents : StepRes MayorState MayorState → List MayorAgentEntry
  | .cont s => s.agents
  | .exit s => s.agents

theorem map_agent_id_updateFirst (p : MayorAgentEntry → Bool)
    (f : MayorAgentEntry → MayorAgentEntry) (l : List MayorAgentEntry)
    (hf : ∀ a, (f a).agent_id = a.agent_id) :
    (updateFirst p f l).map (·.agent_id) = l.map (·.agent_id) := by
  induction l with
  | nil => rfl
  | cons y ys ih =>
      simp only [updateFirst]
      cases hy : p y with
      | true => simp [hf y]
      | false => simp [ih]

theorem mayorStep_agents_nodup (s : MayorState) (ev : MayorEvent) (s' : MayorState)
    (hs : (s.agents.map (·.agent_id)).Nodup) (h : mayorStep s ev = .cont s') :
    (s'.agents.map (·.agent_id)).Nodup := by
  cases ev with
  | register payload =>
      cases payload with
      | none => simp only [mayorStep] at h; cases h; exact hs
      | some pr =>
          obtain ⟨aid, role⟩ := pr
          simp only [mayorStep] at h
          split at h <;> cases h
          · exact hs
          · next hany =>
              have hnot : aid ∉ s.agents.map (·.agent_id) := by
                intro hmem
                obtain ⟨a, hmema, hida⟩ := List.mem_map.mp hmem
                exact hany (List.any_eq_true.mpr ⟨a, hmema, by simp [hida]⟩)
              simp only [List.map_append, List.map_cons, List.map_nil]
              rw [List.nodup_append]
              refine ⟨hs, List.nodup_singleton _, ?_⟩
              intro x hx hy
              simp only [List.mem_singleton] at hy
              subst hy
              exact hnot hx
  | unregister payload =>
      cases payload with
      | none => simp only [mayorStep] at h; cases h; exact hs
      | some aid =>
          simp only [mayorStep] at h
          cases h
          exact List.Nodup.sublist (List.Sublist.map _ (List.filter_sublist _)) hs
  | status_update payload =>
      cases payload with
      | none => simp only [mayorStep] at h; cases h; exact hs
      | some pr =>
          obtain ⟨aid, status, cw⟩ := pr
          simp only [mayorStep] at h
          cases h
          rw [map_agent_id_updateFirst (fun a => a.agent_id == aid)
            (fun a => { a with status := status, current_work := cw }) s.agents (fun a => rfl)]
          exact hs
  | add_convoy payload =>
      cases payload with
      | none => simp only [mayorStep] at h; cases h; exact hs
      | some cid =>
          simp only [mayorStep] at h
          split at h <;> (cases h; exact hs)
  | convoy_closed payload =>
      cases payload with
      | none => simp only [mayorStep] at h; cases h; exact hs
      | some cid => simp only [mayorStep] at h; cases h; exact hs
  | report payload =>
      cases payload with
      | none => simp only [mayorStep] at h; cases h; exact hs
      | some rep =>
          simp only [mayorStep] at h
          cases h
          rw [map_agent_id_updateFirst (fun a => a.agent_id == rep.polecat_id)
            (fun a => { a with status := rep.status, current_work := some rep.work_item_id })
            s.agents (fun a => rfl)]
          exact hs
  | stop => simp only [mayorStep] at h; cases h

/-- `mayor_wf` only returns on `mayor_stop`, and then emits its state
unchanged. -/
theorem mayorStep_exit_eq (s : MayorState) (ev : MayorEvent) (t : MayorState)
    (h : mayorStep s ev = .exit t) : t = s := by
  cases ev with
  | register payload =>
      cases payload with
      | none => simp only [mayorStep] at h; cases h
      | some pr =>
          obtain ⟨aid, role⟩ := pr
          simp only [mayorStep] at h
          split at h <;> cases h
  | unregister payload =>
      cases payload with
      | none => simp only [mayorStep] at h; cases h
      | some aid => simp only [mayorStep] at h; cases h
  | status_update payload =>
      cases payload with
      | none => simp only [mayorStep] at h; cases h
      | some pr => obtain ⟨a, b, c⟩ := pr; simp only [mayorStep] at h; cases h
  | add_convoy payload =>
      cases payload with
      | none => simp only [mayorStep] at h; cases h
      | some cid =>
          simp only [mayorStep] at h
          split at h <;> cases h
  | convoy_closed payload =>
      cases payload with
      | none => simp only [mayorStep] at h; cases h
      | some cid => simp only [mayorStep] at h; cases h
  | report payload =>
      cases payload with
      | none => simp only [mayorStep] at h; cases h
      | some rep => simp only [mayorStep] at h; cases h
  | stop =>
      simp only [mayorStep, StepRes.exit.injEq] at h
      exact h.symm

/-- **C10.**  In every reachable state of the Mayor workflow — including the
final state emitted on `mayor_stop` — the agents list contains no two
entries with the same `agent_id`; moreover a `register_agent` whose
`agent_id` is already present leaves the state unchanged (the remaining
handlers only update in place or remove, never insert). -/
theorem mayor_agents_unique (evs : List MayorEvent) :
    ((mayorAgents (mayorRun mayorInit evs)).map (·.agent_id)).Nodup ∧
    (∀ (s : MayorState) (aid role : String),
      s.agents.any (fun a => a.agent_id == aid) = true →
      mayorStep s (.register (some (aid, role))) = .cont s) := by
  constructor
  · suffices h : ∀ evs (s : MayorState), (s.agents.map (·.agent_id)).Nodup →
        ((mayorAgents (mayorRun s evs)).map (·.agent_id)).Nodup by
      exact h evs mayorInit (by simp [mayorInit])
    intro evs
    induction evs with
    | nil => intro s hs; exact hs
    | cons ev rest ih =>
        intro s hs
        simp only [mayorRun]
        cases hstep : mayorStep s ev with
        | cont s1 => exact ih s1 (mayorStep_agents_nodup s ev s1 hs hstep)
        | exit t =>
            have := mayorStep_exit_eq s ev t hstep
            subst this
            exact hs
  · intro s aid role hany
    simp only [mayorStep, hany, if_pos]

/-- Witness for `mayor_agents_unique` (its second conjunct is a conditional):
registering `w` twice keeps a single entry. -/
theorem mayor_agents_unique_witness :
    ((mayorAgents (mayorRun mayorInit
        [.register (some ("w", "witness")), .register (some ("w", "witness"))])).map
      (·.agent_id)).Nodup ∧
    mayorStep { active_convoys := [], agents := [{ agent_id := "w", role := "witness", status := "idle", current_work := none }], polecat_reports := [] } (.register (some ("w", "crew"))) = .cont { active_convoys := [], agents := [{ agent_id := "w", role := "witness", status := "idle", current_work := none }], polecat_reports := [] } := by
  obtain ⟨h1, h2⟩ := mayor_agents_unique
    [.register (some ("w", "witness")), .register (some ("w", "witness"))]
  exact ⟨h1, h2 _ "w" "crew" (by decide)⟩

/-! ## Rig workflow — `crates/gtr-temporal/src/workflows/rig.rs`

Per-repository lifecycle.  `rig_stop` performs Continue-As-New with the
(cleared) state as the next run's input; a resumed run starts `dormant`.
-/

/-- `RigAgentEntry` (signals.rs). -/
structure RigAgentEntry where
  agent_id : String
  role : String
deriving Repr, DecidableEq

/-- `RigState` — the loop state of `rig_wf`, also carried through
Continue-As-New (fields as constructed in rig.rs lines 26–38). -/
structure RigState where
  name : String
  git_url : String
  status : String
  agents : List RigAgentEntry
  polecats : List String
  crew : List String
  has_witness : Bool
  has_refinery : Bool
  witness_session_id : Option String
  refinery_session_id : Option String
deriving Repr, DecidableEq

/-- `SpawnAgentInput` — the payload handed to the `spawn_agent` activity
(fields as constructed in rig.rs lines 107–122 and 159–172). -/
structure SpawnAgentInput where
  agent_id : String
  runtime : String
  work_dir : String
  role : String
  rig : Option String
  initial_prompt : Option String
  env_extra : Option (List (String × String))
  resume_session_id : Option String
deriving Repr, DecidableEq

/-- The activity outcomes consumed by one `rig_boot` handler run:
`spawn_agent` success, and for the follow-up `discover_session_id` activity
either `none` (activity failed or its payload did not deserialize — the
stored session id is left unchanged) or `some sid` (a parsed
`DiscoverSessionOutput`, whose `session_id : Option<String>` overwrites the
stored id). -/
structure RigBootOutcome where
  witnessSpawnOk : Bool
  witnessDiscover : Option (Option String)
  refinerySpawnOk : Bool
  refineryDiscover : Option (Option String)
deriving Repr, DecidableEq

/-- One event consumed by one iteration of the `rig_wf` signal loop. -/
inductive RigEvent where
  | boot (outcome : RigBootOutcome)
  | park
  | unpark
  | dock
  | undock
  | register (payload : Option RigAgentEntry)
  | unregister (payload : Option String)
  | stop
deriving Repr, DecidableEq

/-- The witness `SpawnAgentInput` built by the `rig_boot` handler
(rig.rs lines 107–122). -/
def witnessSpawnInput (home name : String) (resume : Option String) : SpawnAgentInput :=
  { agent_id := name ++ "-witness"
    runtime := "claude"
    work_dir := home ++ "/.gtr/rigs/" ++ name ++ "/witness"
    role := "witness"
    rig := some name
    initial_prompt := some ("You are the Witness for rig '" ++ name ++
      "'. Monitor polecats and report issues. Use $RGT_BIN instead of rgt (env var has the full path).\n1. `$RGT_BIN feed` — watch system status\n2. Report stuck polecats to mayor via `$RGT_BIN mail send mayor`")
    env_extra := none
    resume_session_id := resume }

/-- The refinery `SpawnAgentInput` built by the `rig_boot` handler
(rig.rs lines 159–172). -/
def refinerySpawnInput (home name : String) (resume : Option String) : SpawnAgentInput :=
  { agent_id := name ++ "-refinery"
    runtime := "claude"
    work_dir := home ++ "/.gtr/rigs/" ++ name ++ "/refinery"
    role := "refinery"
    rig := some name
    initial_prompt := some ("You are the Refinery for rig '" ++ name ++
      "'. Process the merge queue.\nCheck for enqueued branches and merge them.")
    env_extra := none
    resume_session_id := resume }

/-- The `rig_boot` handler (rig.rs lines 100–208): from `operational` or
`dormant`, become `operational`; for each missing service spawn the agent
and, on spawn success, mark it present and run `discover_session_id`,
storing a parsed `session_id` result.  Returns the emitted spawn calls. -/
def rigBoot (home : String) (s : RigState) (o : RigBootOutcome) : List SpawnAgentInput × RigState :=
  if s.status = "operational" ∨ s.status = "dormant" then
    let s1 := { s with status := "operational" }
    let wr : List SpawnAgentInput × RigState :=
      if s1.has_witness then ([], s1)
      else
        let input := witnessSpawnInput home s1.name s1.witness_session_id
        let s2 :=
          if o.witnessSpawnOk then
            let s2 := { s1 with has_witness := true }
            match o.witnessDiscover with
            | some sid => { s2 with witness_session_id := sid }
            | none => s2
          else s1
        ([input], s2)
    let s3 := wr.2
    let rr : List SpawnAgentInput × RigState :=
      if s3.has_refinery then ([], s3)
      else
        let input := refinerySpawnInput home s3.name s3.refinery_session_id
        let s4 :=
          if o.refinerySpawnOk then
            let s4 := { s3 with has_refinery := true }
            match o.refineryDiscover with
            | some sid => { s4 with refinery_session_id := sid }
            | none => s4
          else s3
        ([input], s4)
    (wr.1 ++ rr.1, rr.2)
  else ([], s)

/-- The `select!` body of `rig_wf` (rig.rs lines 97–286).  Returns the spawn
calls emitted by this iteration and the next state; `exit` is the
Continue-As-New performed by `rig_stop` (rig.rs lines 210–226), carrying the
cleared state (session ids preserved). -/
def rigStep (home : String) (s : RigState) : RigEvent → List SpawnAgentInput × StepRes RigState RigState
  | .boot o =>
      let r := rigBoot home s o
      (r.1, .cont r.2)
  | .stop =>
      ([], .exit { s with status := "dormant", has_witness := false, has_refinery := false, agents := [], polecats := [], crew := [] })
  | .park => ([], .cont (if s.status = "operational" then { s with status := "parked" } else s))
  | .unpark => ([], .cont (if s.status = "parked" then { s with status := "operational" } else s))
  | .dock => ([], .cont (if s.status ≠ "dormant" then { s with status := "docked" } else s))
  | .undock => ([], .cont (if s.status = "docked" then { s with status := "operational" } else s))
  | .register payload =>
      ([], .cont (match payload with
        | some data =>
            let s1 := match data.role with
              | "witness" => { s with has_witness := true }
              | "refinery" => { s with has_refinery := true }
              | "polecat" => { s with polecats := s.polecats ++ [data.agent_id] }
              | "crew" => { s with crew := s.crew ++ [data.agent_id] }
              | _ => s
            { s1 with agents := s1.agents ++ [data] }
        | none => s))
  | .unregister payload =>
      ([], .cont (match payload with
        | some id =>
            match s.agents.findIdx? (fun a => a.agent_id == id) with
            | some pos =>
                match s.agents[pos]? with
                | some removed =>
                    let s1 := { s with agents := s.agents.eraseIdx pos }
                    match removed.role with
                    | "witness" => { s1 with has_witness := false }
                    | "refinery" => { s1 with has_refinery := false }
                    | "polecat" => { s1 with polecats := s1.polecats.filter (fun p => p != id) }
                    | "crew" => { s1 with crew := s1.crew.filter (fun c => c != id) }
                    | _ => s1
                | none => s
            | none => s
        | none => s))

/-- The input-parsing path for a Continue-As-New payload (rig.rs lines
20–22 and 77–79): a payload that deserializes as `RigState` resumes with
`status := "dormant"`. -/
def rigResume (continued : RigState) : RigState := { continued with status := "dormant" }

/-- **C7.**  `rig_stop` from any status continues-as-new with status
`dormant`, `has_witness`/`has_refinery` false and the agent sets cleared,
while both session ids (and name/git_url) are unchanged; the resumed
incarnation starts `dormant`, and on the next `rig_boot` the first spawn
call it emits is the witness spawn carrying the preserved session id as its
`resume_session_id`. -/
theorem rig_stop_continue_as_new (home : String) (s : RigState) (b : RigBootOutcome) :
    ∃ s' : RigState,
      rigStep home s .stop = ([], .exit s') ∧
      s'.status = "dormant" ∧ s'.has_witness = false ∧ s'.has_refinery = false ∧
      s'.agents = [] ∧ s'.polecats = [] ∧ s'.crew = [] ∧
      s'.witness_session_id = s.witness_session_id ∧
      s'.refinery_session_id = s.refinery_session_id ∧
      s'.name = s.name ∧ s'.git_url = s.git_url ∧
      (rigResume s').status = "dormant" ∧
      (∃ rest, (rigStep home (rigResume s') (.boot b)).1 =
        witnessSpawnInput home s.name s.witness_session_id :: rest) := by
  refine ⟨_, rfl, rfl, rfl, rfl, rfl, rfl, rfl, rfl, rfl, rfl, rfl, rfl, ?_⟩
  obtain ⟨w1, w2, r1, r2⟩ := b
  cases w1 <;> cases w2 <;> exact ⟨_, rfl⟩

/-! ## Polecat workflow — `crates/gtr-temporal/src/workflows/polecat.rs`

The ephemeral-worker lifecycle: worktree → spawn → heartbeat loop →
pane capture → kill session → report to mayor → return.
-/

/-- `PolecatDoneSignal` — payload of `polecat_done` (fields read in
polecat.rs lines 120–124). -/
structure PolecatDoneSignal where
  branch : String
  status : String
  summary : Option String
deriving Repr, DecidableEq

/-- `PolecatState` — the value serialized as the workflow result
(polecat.rs lines 229–237). -/
structure PolecatState where
  name : String
  rig : String
  work_item_id : String
  status : String
  branch : String
  worktree_path : String
  summary : Option String
deriving Repr, DecidableEq

/-- One iteration of the heartbeat loop's `biased` `select!` (polecat.rs
lines 110–156): the signals pending when the iteration polls.  `kill` is
polled first, then `done`, then `stuck`; with none of them ready the
60-second timer fires and the `check_agent_alive` activity returns `hbOk`.
`done = some p` is a pending `polecat_done` whose payload parses to `p`
(`some none` an absent/undeserializable payload, which leaves the summary
unchanged). -/
structure PolecatBatch where
  kill : Bool
  done : Option (Option PolecatDoneSignal)
  stuck : Bool
  hbOk : Bool
deriving Repr, DecidableEq

/-- One heartbeat-loop iteration over the tracked `(status, agent_summary)`
pair; `exit` carries `(status, exit_reason, agent_summary)` when the loop
breaks. -/
def polecatLoopStep (status : String) (agent_summary : Option String) (b : PolecatBatch) :
    StepRes (String × Option String) (String × String × Option String) :=
  if b.kill then .exit ("zombie", "killed", agent_summary)
  else match b.done with
    | some payload =>
        let agent_summary := match payload with
          | some data => data.summary
          | none => agent_summary
        .exit ("done", "completed", agent_summary)
    | none =>
        if b.stuck then .cont ("stuck", agent_summary)
        else if b.hbOk then .cont (status, agent_summary)
        else .exit ("dead", "agent_died", agent_summary)

/-- The heartbeat loop: `none` when the batch list is exhausted without a
loop-breaking event (the workflow is still looping — no exit path has been
taken). -/
def polecatLoop : List PolecatBatch → String → Option String → Option (String × String × Option String)
  | [], _, _ => none
  | b :: rest, status, summ =>
      match polecatLoopStep status summ b with
      | .cont (st, sm) => polecatLoop rest st sm
      | .exit r => some r

/-- The external nondeterminism of one `polecat_wf` run. -/
structure PolecatEnv where
  worktreeOk : Bool                -- `git_operation WorktreeAdd` completed_ok
  spawnOk : Bool                   -- `spawn_agent` completed_ok
  batches : List PolecatBatch      -- heartbeat-loop iterations
  capturedPane : Option String     -- parsed `CapturePaneOutput.captured`; `none` also covers activity failure or a payload that does not parse
  reportSendOk : Bool              -- result of `signal_workflow` for the report (errors ignored)
deriving Repr, DecidableEq

/-- A `signal_workflow` call: target workflow id, signal name, payload. -/
structure SentSignal where
  target_workflow : String
  signal_name : String
  report : PolecatReportSignal
deriving Repr, DecidableEq

/-- Phases 4–6 and the return of `polecat_wf` (polecat.rs lines 160–237):
the common tail every exit path falls through to.  Pane capture only if the
agent was spawned; the agent-provided summary takes priority over the
captured pane; kill-session has no effect on workflow state; the report to
`mayor` is built from the tracked state and sent (send errors ignored). -/
def polecatTail (home name rig work_item_id : String) (agent_spawned : Bool)
    (capturedPane : Option String) :
    String × String × Option String → List SentSignal × Option PolecatState :=
  fun (status, exit_reason, agent_summary) =>
    let captured_output := if agent_spawned then capturedPane else none
    let summary := agent_summary.or captured_output
    ([{ target_workflow := "mayor", signal_name := "polecat_report",
        report := { polecat_id := rig ++ "-polecat-" ++ name
                    name := name
                    rig := rig
                    work_item_id := work_item_id
                    branch := "polecat/" ++ name ++ "/" ++ work_item_id
                    status := status
                    summary := summary
                    exit_reason := exit_reason } }],
     some { name := name
            rig := rig
            work_item_id := work_item_id
            status := status
            branch := "polecat/" ++ name ++ "/" ++ work_item_id
            worktree_path := home ++ "/.gtr/rigs/" ++ rig ++ "/polecats/" ++ name
            summary := summary })

/-- `polecat_wf` (polecat.rs lines 17–238) as a function of its input and
activity/signal oracles.  Worktree failure and spawn failure skip to the
tail with the corresponding status/exit_reason (the `if status ==
"working"` guard becomes the nesting); otherwise the heartbeat loop runs;
a loop exit falls through to the tail.  The second component is `none`
when the heartbeat loop is still running (no exit path taken). -/
def polecat_run (home name rig work_item_id title : String) (env : PolecatEnv) :
    List SentSignal × Option PolecatState :=
  if env.worktreeOk then
    if env.spawnOk then
      match polecatLoop env.batches "working" none with
      | none => ([], none)
      | some r => polecatTail home name rig work_item_id true env.capturedPane r
    else polecatTail home name rig work_item_id false env.capturedPane
      ("spawn_failed", "spawn_failed", none)
  else polecatTail home name rig work_item_id false env.capturedPane
    ("failed", "worktree_failed", none)

/-- **C1.**  Whenever a Polecat run terminates — worktree failure, spawn
failure, kill, done, and agent death alike — exactly one `polecat_report`
is sent, addressed to workflow id `mayor`, carrying the derived
`polecat_id`/`branch` and the final status and summary; and the outcome of
the report send (`reportSendOk`) has no effect on the run. -/
theorem polecat_report_exactly_once (home name rig work_item_id title : String)
    (env : PolecatEnv) (st : PolecatState)
    (h : (polecat_run home name rig work_item_id title env).2 = some st) :
    (∃ exit_reason,
      (polecat_run home name rig work_item_id title env).1 =
        [{ target_workflow := "mayor", signal_name := "polecat_report",
           report := { polecat_id := rig ++ "-polecat-" ++ name
                       name := name
                       rig := rig
                       work_item_id := work_item_id
                       branch := "polecat/" ++ name ++ "/" ++ work_item_id
                       status := st.status
                       summary := st.summary
                       exit_reason := exit_reason } }]) ∧
    (∀ ok, polecat_run home name rig work_item_id title { env with reportSendOk := ok } =
      polecat_run home name rig work_item_id title env) := by
  obtain ⟨wt, sp, bs, cap, rs⟩ := env
  refine ⟨?_, fun ok => rfl⟩
  cases wt with
  | false =>
      have h2 : (polecatTail home name rig work_item_id false cap
          ("failed", "worktree_failed", none)).2 = some st := h
      simp only [polecatTail, Option.some.injEq] at h2
      subst h2
      exact ⟨"worktree_failed", rfl⟩
  | true =>
      cases sp with
      | false =>
          have h2 : (polecatTail home name rig work_item_id false cap
              ("spawn_failed", "spawn_failed", none)).2 = some st := h
          simp only [polecatTail, Option.some.injEq] at h2
          subst h2
          exact ⟨"spawn_failed", rfl⟩
      | true =>
          have h2 : (match polecatLoop bs "working" none with
              | none => (([], none) : List SentSignal × Option PolecatState)
              | some r => polecatTail home name rig work_item_id true cap r).2 = some st := h
          cases hl : polecatLoop bs "working" none with
          | none =>
              rw [hl] at h2
              simp at h2
          | some r =>
              obtain ⟨a, b, c⟩ := r
              rw [hl] at h2
              simp only [polecatTail, Option.some.injEq] at h2
              subst h2
              refine ⟨b, ?_⟩
              show (match polecatLoop bs "working" none with
                  | none => (([], none) : List SentSignal × Option PolecatState)
                  | some r => polecatTail home name rig work_item_id true cap r).1 = _
              rw [hl]
              rfl

/-- Witness for `polecat_report_exactly_once` at a worktree-failure run. -/
theorem polecat_report_exactly_once_witness :
    ∃ exit_reason,
      (polecat_run "/home/u" "nux" "rig1" "wi-9" "t"
          { worktreeOk := false, spawnOk := true, batches := [], capturedPane := none,
            reportSendOk := false }).1 =
        [{ target_workflow := "mayor", signal_name := "polecat_report",
           report := { polecat_id := "rig1-polecat-nux"
                       name := "nux"
                       rig := "rig1"
                       work_item_id := "wi-9"
                       branch := "polecat/nux/wi-9"
                       status := "failed"
                       summary := none
                       exit_reason := exit_reason } }] :=
  (polecat_report_exactly_once "/home/u" "nux" "rig1" "wi-9" "t"
    { worktreeOk := false, spawnOk := true, batches := [], capturedPane := none,
      reportSendOk := false }
    { name := "nux", rig := "rig1", work_item_id := "wi-9", status := "failed",
      branch := "polecat/nux/wi-9", worktree_path := "/home/u/.gtr/rigs/rig1/polecats/nux",
      summary := none } rfl).1

/-- A heartbeat-loop batch that does not break the loop: no kill, no done,
and either a `stuck` signal or a successful liveness probe. -/
def nonBreakingBatch (b : PolecatBatch) : Prop :=
  b.kill = false ∧ b.done = none ∧ (b.stuck = true ∨ b.hbOk = true)

theorem polecatLoop_append (es : List PolecatBatch) (b : PolecatBatch)
    (status : String) (summ : Option String) (hes : ∀ x ∈ es, nonBreakingBatch x) :
    ∃ status', polecatLoop (es ++ [b]) status summ = polecatLoop [b] status' summ := by
  induction es generalizing status with
  | nil => exact ⟨status, rfl⟩
  | cons e rest ih =>
      obtain ⟨hk, hd, hsb⟩ := hes e (List.mem_cons_self e rest)
      have hstep : ∀ st : String, ∃ st',
          polecatLoopStep st summ e = .cont (st', summ) := by
        intro st
        rcases hsb with hstuck | hhb
        · exact ⟨"stuck", by simp [polecatLoopStep, hk, hd, hstuck]⟩
        · cases hstuck : e.stuck with
          | true => exact ⟨"stuck", by simp [polecatLoopStep, hk, hd, hstuck]⟩
          | false => exact ⟨st, by simp [polecatLoopStep, hk, hd, hstuck, hhb]⟩
      obtain ⟨st', hst⟩ := hstep status
      have : polecatLoop (e :: rest ++ [b]) status summ = polecatLoop (rest ++ [b]) st' summ := by
        simp only [List.cons_append, polecatLoop, hst]
        rfl
      rw [this]
      exact ih st' (fun x hx => hes x (List.mem_cons_of_mem e hx))

/-- **C5.**  When `polecat_done` and `polecat_kill` are both pending in the
same heartbeat-loop selection batch, the `biased` select gives priority to
kill: the run terminates with `status = "zombie"`, and the single report
sent to `mayor` carries `status = "zombie"` and `exit_reason = "killed"`
(not `done`/`completed`). -/
theorem polecat_kill_beats_done (home name rig work_item_id title : String)
    (env : PolecatEnv) (es : List PolecatBatch) (b : PolecatBatch)
    (hwt : env.worktreeOk = true) (hsp : env.spawnOk = true)
    (hbatch : env.batches = es ++ [b])
    (hes : ∀ x ∈ es, nonBreakingBatch x)
    (hkill : b.kill = true) (hdone : b.done.isSome = true) :
    ∃ st : PolecatState,
      (polecat_run home name rig work_item_id title env).2 = some st ∧
      st.status = "zombie" ∧
      ∃ r : SentSignal,
        (polecat_run home name rig work_item_id title env).1 = [r] ∧
        r.target_workflow = "mayor" ∧
        r.report.status = "zombie" ∧ r.report.exit_reason = "killed" := by
  obtain ⟨wt, sp, bs, cap, rs⟩ := env
  simp only at hwt hsp hbatch
  subst hwt; subst hsp; subst hbatch
  obtain ⟨st0, hloop⟩ := polecatLoop_append es b "working" none hes
  have hb : polecatLoop [b] st0 none = some ("zombie", "killed", none) := by
    simp [polecatLoop, polecatLoopStep, hkill]
  simp only [polecat_run, hloop, hb]
  exact ⟨_, rfl, rfl, _, rfl, rfl, rfl, rfl⟩

/-- Witness for `polecat_kill_beats_done`: a batch with both `done` and
`kill` pending, delivered after one quiet heartbeat iteration. -/
theorem polecat_kill_beats_done_witness :
    ∃ st : PolecatState,
      (polecat_run "/h" "nux" "r1" "wi-3" "t"
        { worktreeOk := true, spawnOk := true,
          batches := [{ kill := false, done := none, stuck := false, hbOk := true },
                      { kill := true,
                        done := some (some { branch := "polecat/nux/wi-3", status := "done", summary := some "did it" }),
                        stuck := false, hbOk := true }],
          capturedPane := none, reportSendOk := true }).2 = some st ∧
      st.status = "zombie" ∧
      ∃ r : SentSignal,
        (polecat_run "/h" "nux" "r1" "wi-3" "t"
          { worktreeOk := true, spawnOk := true,
            batches := [{ kill := false, done := none, stuck := false, hbOk := true },
                        { kill := true,
                          done := some (some { branch := "polecat/nux/wi-3", status := "done", summary := some "did it" }),
                          stuck := false, hbOk := true }],
            capturedPane := none, reportSendOk := true }).1 = [r] ∧
        r.target_workflow = "mayor" ∧
        r.report.status = "zombie" ∧ r.report.exit_reason = "killed" := by
  apply polecat_kill_beats_done "/h" "nux" "r1" "wi-3" "t" _
    [{ kill := false, done := none, stuck := false, hbOk := true }]
    { kill := true,
      done := some (some { branch := "polecat/nux/wi-3", status := "done", summary := some "did it" }),
      stuck := false, hbOk := true }
    rfl rfl rfl
  · intro x hx
    simp only [List.mem_singleton] at hx
    subst hx
    exact ⟨rfl, rfl, Or.inr rfl⟩
  · rfl
  · rfl

/-! ## Refinery workflow — `crates/gtr-temporal/src/workflows/refinery.rs`

The merge queue: block on a signal, apply it, re-sort the queue by
priority (`sort_by_key` — stable), then drain every `queued` entry through
the checkout → rebase → test → merge → push pipeline.
-/

/-- `RefineryEntry` (signals.rs).  `priority` is a `u8` used only for
comparison, modelled as `Nat`. -/
structure RefineryEntry where
  work_item_id : String
  branch : String
  priority : Nat
  status : String
deriving Repr, DecidableEq

/-- `RefineryState` (signals.rs) — the value emitted on `refinery_stop`,
and the loop state. -/
structure RefineryState where
  queue : List RefineryEntry
  processed : List RefineryEntry
deriving Repr, DecidableEq

/-- One signal consumed by one iteration of the `refinery_wf` loop. -/
inductive RefEvent where
  | enqueue (payload : Option (String × String × Nat))  -- `{work_item_id, branch, priority}`
  | dequeue (payload : Option String)
  | stop
deriving Repr, DecidableEq

/-- The activity outcomes consumed while one queue entry runs the
pipeline. -/
structure StepOutcome where
  checkoutOk : Bool
  rebaseOk : Bool
  testsOk : Bool
  mergeOk : Bool
  pushOk : Bool
deriving Repr, DecidableEq

/-- The final status of an entry after the pipeline (refinery.rs lines
80–217): the cascade of `continue` branches — checkout failure, rebase
conflict, test failure, merge failure, push failure after merge —
otherwise `merged`. -/
def pipelineStatus (o : StepOutcome) : String :=
  if ¬ o.checkoutOk then "checkout_failed"
  else if ¬ o.rebaseOk then "conflict"
  else if ¬ o.testsOk then "tests_failed"
  else if o.mergeOk then (if o.pushOk then "merged" else "merged_push_failed")
  else "merge_failed"

/-- The drain loop (refinery.rs lines 75–219): while some entry is
`queued`, take the first such index, mark it `validating`, run the pipeline
(consuming the next `StepOutcome` from the oracle), remove it from the
queue and append it (with its final status) to `processed`.  Every
iteration removes exactly one entry, so the queue length bounds the
iteration count; `fuel` is that structural bound (callers pass
`queue.length`). -/
def drain (oracle : Nat → StepOutcome) :
    Nat → Nat → List RefineryEntry → List RefineryEntry →
      List RefineryEntry × List RefineryEntry × Nat
  | 0, ctr, queue, processed => (queue, processed, ctr)
  | fuel + 1, ctr, queue, processed =>
      match queue.findIdx? (fun e => e.status == "queued") with
      | none => (queue, processed, ctr)
      | some idx =>
          match queue[idx]? with
          | none => (queue, processed, ctr)
          | some e =>
              drain oracle fuel (ctr + 1)
                ((queue.set idx { e with status := "validating" }).eraseIdx idx)
                (processed ++ [{ e with status := pipelineStatus (oracle ctr) }])

/-- `refinery_wf` (refinery.rs lines 23–224) over a list of delivered
signals: apply the signal (`stop` breaks and returns the state), sort the
queue by priority ascending (stable), drain.  When the signal list is
exhausted the current (live) state is returned.  `ctr` counts pipeline runs
to index the outcome oracle. -/
def refineryRun (oracle : Nat → StepOutcome) :
    List RefEvent → Nat → List RefineryEntry → List RefineryEntry → RefineryState
  | [], _, queue, processed => { queue := queue, processed := processed }
  | ev :: rest, ctr, queue, processed =>
      match ev with
      | .stop => { queue := queue, processed := processed }
      | .enqueue payload =>
          let queue1 : List RefineryEntry := match payload with
            | some (wid, br, prio) =>
                queue ++ [{ work_item_id := wid, branch := br, priority := prio, status := "queued" }]
            | none => queue
          let sorted := queue1.mergeSort (fun a b => a.priority ≤ b.priority)
          match drain oracle sorted.length ctr sorted processed with
          | (q2, p2, ctr2) => refineryRun oracle rest ctr2 q2 p2
      | .dequeue payload =>
          let queue1 : List RefineryEntry := match payload with
            | some wid => queue.filter (fun e => e.work_item_id != wid)
            | none => queue
          let sorted := queue1.mergeSort (fun a b => a.priority ≤ b.priority)
          match drain oracle sorted.length ctr sorted processed with
          | (q2, p2, ctr2) => refineryRun oracle rest ctr2 q2 p2

theorem drain_nil (oracle : Nat → StepOutcome) (fuel ctr : Nat) (processed : List RefineryEntry) :
    drain oracle fuel ctr [] processed = ([], processed, ctr) := by
  cases fuel <;> rfl

theorem drain_singleton (oracle : Nat → StepOutcome) (ctr : Nat)
    (e : RefineryEntry) (processed : List RefineryEntry) (he : e.status = "queued") :
    drain oracle 1 ctr [e] processed =
      ([], processed ++ [{ e with status := pipelineStatus (oracle ctr) }], ctr + 1) := by
  simp only [drain, List.findIdx?_cons, he]
  rfl

/-- **C4 counterexample.**  Enqueue `(A, priority 2)` then `(B, priority 0)`
into an idle Refinery (every pipeline activity succeeding): the drain
triggered by A's own enqueue signal processes A to completion before B's
enqueue is consumed, so the first entry appended to `processed` is `A`,
not `B`. -/
theorem refinery_priority_counterexample :
    ((refineryRun
        (fun _ => { checkoutOk := true, rebaseOk := true, testsOk := true,
                    mergeOk := true, pushOk := true })
        [.enqueue (some ("A", "bA", 2)), .enqueue (some ("B", "bB", 0))]
        0 [] []).processed.map (·.work_item_id)) = ["A", "B"] ∧
    ¬ (("A" : String) = "B") := by
  constructor
  · simp only [refineryRun, List.nil_append, List.mergeSort_singleton]
    rw [show ([{ work_item_id := "A", branch := "bA", priority := 2, status := "queued" }] :
        List RefineryEntry).length = 1 from rfl]
    rw [drain_singleton _ _ _ _ rfl]
    simp only [refineryRun, List.nil_append, List.mergeSort_singleton]
    rw [show ([{ work_item_id := "B", branch := "bB", priority := 0, status := "queued" }] :
        List RefineryEntry).length = 1 from rfl]
    rw [drain_singleton _ _ _ _ rfl]
    simp [refineryRun]
  · decide

/-- **C4 (amended).**  When `(A, priority pa)` is enqueued into an idle
Refinery and `(B, priority pb)` is enqueued afterwards, A is fully
processed *first*, whatever the priorities: the drain runs after every
signal, so A's own enqueue signal starts A's pipeline before B's enqueue
is consumed, and a later high-priority entry cannot preempt it.  The
processed order is `[A, B]`, so `processed[0]` is A, not B. -/
theorem refinery_enqueue_order (pa pb : Nat) (ba bb : String) (oracle : Nat → StepOutcome) :
    ((refineryRun oracle
        [.enqueue (some ("A", ba, pa)), .enqueue (some ("B", bb, pb))]
        0 [] []).processed.map (·.work_item_id)) = ["A", "B"] := by
  simp only [refineryRun, List.nil_append, List.mergeSort_singleton]
  rw [show ([{ work_item_id := "A", branch := ba, priority := pa, status := "queued" }] :
      List RefineryEntry).length = 1 from rfl]
  rw [drain_singleton _ _ _ _ rfl]
  simp only [refineryRun, List.nil_append, List.mergeSort_singleton]
  rw [show ([{ work_item_id := "B", branch := bb, priority := pb, status := "queued" }] :
      List RefineryEntry).length = 1 from rfl]
  rw [drain_singleton _ _ _ _ rfl]
  simp [refineryRun]

/-! ## Formula loader — `crates/gtr-core/src/formula.rs`

`FormulaDef.topo_sort` is Kahn's algorithm: build a name→index map (a
`HashMap` collected over the steps, so a later step overwrites an earlier
one with the same name), resolve every `depends_on` entry (erroring on an
unknown name), compute in-degrees and adjacency, seed a `Vec` used as a
stack with the zero-in-degree indices in ascending order, and pop/decrement
until done; fewer than `n` popped indices means a cycle.
-/

/-- `FormulaStep` (formula.rs lines 15–23). -/
structure FormulaStep where
  name : String
  command : String
  args : List String
  depends_on : List String
deriving Repr, DecidableEq

instance : Inhabited FormulaStep := ⟨⟨"", "", [], []⟩⟩

/-- `FormulaDef` (formula.rs lines 6–13). -/
structure FormulaDef where
  name : String
  description : Option String
  vars : List String
  steps : List FormulaStep
deriving Repr, DecidableEq

/-- The `name_to_idx` HashMap (formula.rs lines 37–42): maps a step name to
its index; `collect` keeps the **last** insertion per key, hence the search
over the reversed enumeration. -/
def nameToIdx (steps : List FormulaStep) (d : String) : Option Nat :=
  ((steps.enum.reverse).find? (fun p => p.2.name == d)).map (·.1)

/-- The `(dep, i)` pairs visited by the edge-building double loop
(formula.rs lines 48–56), in visit order: steps outer (index `k`
onwards), `depends_on` inner. -/
def depPairs : Nat → List FormulaStep → List (String × Nat)
  | _, [] => []
  | k, s :: rest => s.depends_on.map (fun d => (d, k)) ++ depPairs (k + 1) rest

/-- Resolve every dependency pair to an edge `(j, i)` — step `i` depends on
step `j` — failing on the first unknown name (formula.rs lines 50–52). -/
def resolveEdges (steps : List FormulaStep) : List (String × Nat) → Except String (List (Nat × Nat))
  | [] => .ok []
  | (d, i) :: rest =>
      match nameToIdx steps d with
      | some j =>
          match resolveEdges steps rest with
          | .ok es => .ok ((j, i) :: es)
          | .error msg => .error msg
      | none => .error ("unknown dependency: " ++ d)

/-- One pass of the inner `for &next in &adj[idx]` loop (formula.rs lines
69–74) over the queue and the in-degree table: decrement each target's
in-degree and push it when it reaches zero.  The Rust `Vec` queue is
modelled top-first: `Vec::push` is cons, `Vec::pop` takes the head. -/
def kahnFold (queue : List Nat) (indeg : Nat → Nat) (targets : List Nat) :
    List Nat × (Nat → Nat) :=
  targets.foldl
    (fun acc next =>
      let d' : Nat → Nat := fun k => if k = next then acc.2 next - 1 else acc.2 k
      (if d' next = 0 then next :: acc.1 else acc.1, d'))
    (queue, indeg)

/-- The `while let Some(idx) = queue.pop()` loop (formula.rs lines 67–75).
Each iteration pops one index, so the number of steps bounds the iteration
count; `fuel` is that structural bound (`topo_sort` passes `n`, sufficient
because no index is ever pushed twice). -/
def kahn (adj : Nat → List Nat) : Nat → List Nat → (Nat → Nat) → List Nat → List Nat
  | 0, _, _, order => order
  | _ + 1, [], _, order => order
  | fuel + 1, idx :: rest, indeg, order =>
      let r := kahnFold rest indeg (adj idx)
      kahn adj fuel r.1 r.2 (order ++ [idx])

/-- `FormulaDef::topo_sort` (formula.rs lines 36–82). -/
def topo_sort (f : FormulaDef) : Except String (List FormulaStep) :=
  match resolveEdges f.steps (depPairs 0 f.steps) with
  | .error msg => .error msg
  | .ok E =>
      let n := f.steps.length
      let indeg : Nat → Nat := fun i => E.countP (fun e => e.2 == i)
      let adj : Nat → List Nat := fun j => (E.filter (fun e => e.1 == j)).map (·.2)
      let q0 := ((List.range n).filter (fun i => indeg i == 0)).reverse
      let order := kahn adj n q0 indeg []
      if order.length = n then .ok (order.map (fun i => f.steps.getD i default))
      else .error "cycle detected in formula steps"

/-- The claim's dependency graph on step indices: `depEdge steps j i` holds
when step `i` names step `j`'s name in its `depends_on` (step `j` must come
before step `i`). -/
def depEdge (steps : List FormulaStep) (j i : Nat) : Prop :=
  ∃ s t, steps[j]? = some s ∧ steps[i]? = some t ∧ s.name ∈ t.depends_on

/-- **C8 counterexample.**  With duplicate step names the claim fails: in
`[a (depends on b), b (depends on a), a]` the name-based dependency graph
has the cycle `a ↔ b`, yet `topo_sort` succeeds — dependency resolution
maps the name `a` to the *last* step carrying it (index 2), so the code's
graph `2 → 1 → 0` is acyclic and Kahn's algorithm pops everything. -/
theorem topo_sort_cycle_counterexample :
    Relation.TransGen
      (depEdge [{ name := "a", command := "c", args := [], depends_on := ["b"] },
                { name := "b", command := "c", args := [], depends_on := ["a"] },
                { name := "a", command := "c", args := [], depends_on := [] }]) 0 0 ∧
    topo_sort { name := "f", description := none, vars := [],
                steps := [{ name := "a", command := "c", args := [], depends_on := ["b"] },
                          { name := "b", command := "c", args := [], depends_on := ["a"] },
                          { name := "a", command := "c", args := [], depends_on := [] }] } =
      .ok [{ name := "a", command := "c", args := [], depends_on := [] },
           { name := "b", command := "c", args := [], depends_on := ["a"] },
           { name := "a", command := "c", args := [], depends_on := ["b"] }] := by
  constructor
  · refine Relation.TransGen.head (b := 1) ?_ (Relation.TransGen.single ?_)
    · exact ⟨{ name := "a", command := "c", args := [], depends_on := ["b"] },
             { name := "b", command := "c", args := [], depends_on := ["a"] },
             rfl, rfl, by decide⟩
    · exact ⟨{ name := "b", command := "c", args := [], depends_on := ["a"] },
             { name := "a", command := "c", args := [], depends_on := ["b"] },
             rfl, rfl, by decide⟩
  · rfl

/-! Resolution lemmas: what `nameToIdx`, `depPairs` and `resolveEdges`
compute. -/

theorem nameToIdx_some (steps : List FormulaStep) (d : String) (j : Nat)
    (h : nameToIdx steps d = some j) : ∃ s, steps[j]? = some s ∧ s.name = d := by
  unfold nameToIdx at h
  cases hf : (steps.enum.reverse).find? (fun p => p.2.name == d) with
  | none => rw [hf] at h; cases h
  | some p =>
      rw [hf] at h
      obtain ⟨i, s⟩ := p
      simp only [Option.map_some'] at h
      have hp : (s.name == d) = true := by simpa using List.find?_some hf
      have hmem : (i, s) ∈ steps.enum := List.mem_reverse.mp (List.mem_of_find?_eq_some hf)
      injection h with h
      subst h
      exact ⟨s, List.mem_enum_iff_getElem?.mp hmem, by simpa using hp⟩

theorem nameToIdx_isSome (steps : List FormulaStep) (d : String) (s : FormulaStep)
    (hs : s ∈ steps) (hname : s.name = d) : (nameToIdx steps d).isSome := by
  unfold nameToIdx
  obtain ⟨i, hi⟩ := List.mem_iff_getElem?.mp hs
  have hmem : (i, s) ∈ steps.enum.reverse :=
    List.mem_reverse.mpr (List.mem_enum_iff_getElem?.mpr hi)
  have hfs : ((steps.enum.reverse).find? (fun p => p.2.name == d)).isSome :=
    List.find?_isSome.mpr ⟨(i, s), hmem, by simp [hname]⟩
  cases hf : (steps.enum.reverse).find? (fun p => p.2.name == d) with
  | none => rw [hf] at hfs; cases hfs
  | some p => rfl

theorem nameToIdx_lt (steps : List FormulaStep) (d : String) (j : Nat)
    (h : nameToIdx steps d = some j) : j < steps.length := by
  obtain ⟨s, hj, _⟩ := nameToIdx_some steps d j h
  exact (List.getElem?_eq_some.mp hj).1

theorem nameToIdx_of_nodup (steps : List FormulaStep)
    (hnd : (steps.map (·.name)).Nodup) (j : Nat) (s : FormulaStep)
    (hj : steps[j]? = some s) : nameToIdx steps s.name = some j := by
  have h1 : (nameToIdx steps s.name).isSome :=
    nameToIdx_isSome steps s.name s (List.getElem?_mem hj) rfl
  cases h2 : nameToIdx steps s.name with
  | none => rw [h2] at h1; cases h1
  | some j' =>
      obtain ⟨s', hj', hname'⟩ := nameToIdx_some _ _ _ h2
      obtain ⟨hlt, hg⟩ := List.getElem?_eq_some.mp hj
      obtain ⟨hlt', hg'⟩ := List.getElem?_eq_some.mp hj'
      have hmain : (steps.map (·.name)).get ⟨j', by simpa using hlt'⟩ =
          (steps.map (·.name)).get ⟨j, by simpa using hlt⟩ := by
        simp only [List.get_eq_getElem, List.getElem_map]
        rw [hg, hg', hname']
      have := (List.Nodup.getElem_inj_iff hnd).mp hmain
      rw [this]

theorem depPairs_mem (steps0 : List FormulaStep) :
    ∀ (k : Nat) (d : String) (i : Nat),
      ((d, i) ∈ depPairs k steps0 ↔
        ∃ m t, i = k + m ∧ steps0[m]? = some t ∧ d ∈ t.depends_on) := by
  induction steps0 with
  | nil => intro k d i; simp [depPairs]
  | cons s rest ih =>
      intro k d i
      simp only [depPairs, List.mem_append, List.mem_map]
      constructor
      · rintro (⟨d0, hd0, heq⟩ | hrest)
        · injection heq with h1 h2
          subst h1; subst h2
          exact ⟨0, s, by simp, by simpa using hd0⟩
        · obtain ⟨m, t, hi, hg, hd⟩ := (ih (k + 1) d i).mp hrest
          exact ⟨m + 1, t, by omega, by simpa using hg, hd⟩
      · rintro ⟨m, t, hi, hg, hd⟩
        cases m with
        | zero =>
            left
            simp only [List.getElem?_cons_zero, Option.some.injEq] at hg
            subst hg
            exact ⟨d, hd, by simp [hi]⟩
        | succ m' =>
            right
            exact (ih (k + 1) d i).mpr ⟨m', t, by omega, by simpa using hg, hd⟩

theorem resolveEdges_ok_mem (steps : List FormulaStep) :
    ∀ (pairs : List (String × Nat)) (E : List (Nat × Nat)),
      resolveEdges steps pairs = .ok E →
      ∀ (j i : Nat), ((j, i) ∈ E ↔ ∃ d, (d, i) ∈ pairs ∧ nameToIdx steps d = some j) := by
  intro pairs
  induction pairs with
  | nil =>
      intro E hE j i
      simp only [resolveEdges, Except.ok.injEq] at hE
      subst hE
      simp
  | cons p rest ih =>
      intro E hE j i
      obtain ⟨d0, i0⟩ := p
      simp only [resolveEdges] at hE
      cases hn : nameToIdx steps d0 with
      | none => rw [hn] at hE; cases hE
      | some j0 =>
          rw [hn] at hE
          cases hr : resolveEdges steps rest with
          | error msg => rw [hr] at hE; cases hE
          | ok E' =>
              rw [hr] at hE
              simp only [Except.ok.injEq] at hE
              subst hE
              simp only [List.mem_cons, Prod.mk.injEq]
              constructor
              · rintro (⟨hj, hi⟩ | hmem)
                · subst hj; subst hi
                  exact ⟨d0, Or.inl ⟨rfl, rfl⟩, hn⟩
                · obtain ⟨d, hd, hnd⟩ := (ih E' hr j i).mp hmem
                  exact ⟨d, Or.inr hd, hnd⟩
              · rintro ⟨d, hd | hd, hnd⟩
                · obtain ⟨rfl, rfl⟩ := hd
                  rw [hn] at hnd
                  injection hnd with h3
                  exact Or.inl ⟨h3.symm, rfl⟩
                · exact Or.inr ((ih E' hr j i).mpr ⟨d, hd, hnd⟩)

theorem resolveEdges_isOk (steps : List FormulaStep) :
    ∀ (pairs : List (String × Nat)),
      (∀ p ∈ pairs, (nameToIdx steps p.1).isSome) →
      ∃ E, resolveEdges steps pairs = .ok E := by
  intro pairs
  induction pairs with
  | nil => intro _; exact ⟨[], rfl⟩
  | cons p rest ih =>
      intro hall
      obtain ⟨d0, i0⟩ := p
      have h0 := hall (d0, i0) (List.mem_cons_self _ _)
      cases hn : nameToIdx steps d0 with
      | none => rw [hn] at h0; cases h0
      | some j0 =>
          obtain ⟨E', hE'⟩ := ih (fun q hq => hall q (List.mem_cons_of_mem _ hq))
          exact ⟨(j0, i0) :: E', by simp only [resolveEdges, hn, hE']⟩

/-- Bounds: every edge produced from `depPairs 0 steps` joins two valid
step indices. -/
theorem resolveEdges_bounds (steps : List FormulaStep) (E : List (Nat × Nat))
    (hE : resolveEdges steps (depPairs 0 steps) = .ok E) :
    ∀ e ∈ E, e.1 < steps.length ∧ e.2 < steps.length := by
  intro e he
  obtain ⟨j, i⟩ := e
  obtain ⟨d, hd, hn⟩ := (resolveEdges_ok_mem steps _ E hE j i).mp he
  refine ⟨nameToIdx_lt steps d j hn, ?_⟩
  obtain ⟨m, t, hi, hg, _⟩ := (depPairs_mem steps 0 d i).mp hd
  have := (List.getElem?_eq_some.mp hg).1
  omega

/-! Kahn's-algorithm machinery: the inner fold, then the loop invariant. -/

theorem countP_split (l : List α) (p q : α → Bool) :
    l.countP p = l.countP (fun a => p a && q a) + l.countP (fun a => p a && !q a) := by
  induction l with
  | nil => rfl
  | cons x xs ih =>
      simp only [List.countP_cons, ih]
      cases hp : p x <;> cases hq : q x <;> simp [hp, hq] <;> omega

theorem kahnFold_spec (targets : List Nat) :
    ∀ (q : List Nat) (d : Nat → Nat),
      (∀ k, targets.count k ≤ d k) →
      (∀ k, (kahnFold q d targets).2 k = d k - targets.count k) ∧
      (∀ k, (kahnFold q d targets).1.count k =
        q.count k + (if 0 < d k ∧ targets.count k = d k then 1 else 0)) := by
  induction targets with
  | nil =>
      intro q d _
      constructor
      · intro k; simp [kahnFold]
      · intro k
        simp only [kahnFold, List.foldl_nil, List.count_nil]
        split
        · next hc => omega
        · omega
  | cons next ts ih =>
      intro q d hcnt
      have hge1 : 1 ≤ d next := by
        have := hcnt next
        rw [List.count_cons_self] at this
        omega
      have hstep : kahnFold q d (next :: ts) =
          kahnFold
            (if (fun k => if k = next then d next - 1 else d k) next = 0 then next :: q else q)
            (fun k => if k = next then d next - 1 else d k) ts := rfl
      have hd1next : (fun k => if k = next then d next - 1 else d k) next = d next - 1 := by
        simp
      have hcnt' : ∀ k, ts.count k ≤ (fun k => if k = next then d next - 1 else d k) k := by
        intro k
        show ts.count k ≤ if k = next then d next - 1 else d k
        by_cases hk : k = next
        · subst hk
          rw [if_pos rfl]
          have := hcnt k
          rw [List.count_cons_self] at this
          omega
        · rw [if_neg hk]
          have := hcnt k
          rw [List.count_cons_of_ne hk] at this
          omega
      obtain ⟨ihd, ihq⟩ := ih
        (if (fun k => if k = next then d next - 1 else d k) next = 0 then next :: q else q)
        (fun k => if k = next then d next - 1 else d k) hcnt'
      constructor
      · intro k
        rw [hstep, ihd k]
        by_cases hk : k = next
        · subst hk
          have hts : ts.count k ≤ d k - 1 := by simpa using hcnt' k
          rw [List.count_cons_self]
          have hkk : (if k = k then d k - 1 else d k) = d k - 1 := if_pos rfl
          rw [hkk]
          omega
        · rw [List.count_cons_of_ne hk]
          rw [if_neg hk]
      · intro k
        rw [hstep, ihq k]
        have hbeta : ((fun k_2 => if k_2 = next then d next - 1 else d k_2) next) = d next - 1 := by
          simp
        rw [hbeta]
        by_cases hk : k = next
        · subst hk
          have hts : ts.count k ≤ d k - 1 := by simpa using hcnt' k
          have hkk : (if k = k then d k - 1 else d k) = d k - 1 := if_pos rfl
          rw [hkk, List.count_cons_self]
          by_cases h1 : d k = 1
          · rw [if_pos (by omega : d k - 1 = 0)]
            rw [List.count_cons_self]
            rw [if_neg (by omega : ¬(0 < d k - 1 ∧ ts.count k = d k - 1))]
            rw [if_pos (show 0 < d k ∧ ts.count k + 1 = d k by omega)]
          · rw [if_neg (by omega : ¬(d k - 1 = 0))]
            by_cases h2 : ts.count k = d k - 1
            · rw [if_pos (show 0 < d k - 1 ∧ ts.count k = d k - 1 by omega)]
              rw [if_pos (show 0 < d k ∧ ts.count k + 1 = d k by omega)]
            · rw [if_neg (show ¬(0 < d k - 1 ∧ ts.count k = d k - 1) by omega)]
              rw [if_neg (show ¬(0 < d k ∧ ts.count k + 1 = d k) by omega)]
        · rw [List.count_cons_of_ne hk]
          have hkn : (if k = next then d next - 1 else d k) = d k := if_neg hk
          rw [hkn]
          have hq1 : (if d next - 1 = 0 then next :: q else q).count k = q.count k := by
            split
            · rw [List.count_cons_of_ne hk]
            · rfl
          rw [hq1]

theorem length_le_of_nodup_lt (n : Nat) (l : List Nat) (hnd : l.Nodup)
    (hlt : ∀ x ∈ l, x < n) : l.length ≤ n := by
  have hsub : l ⊆ List.range n := fun x hx => List.mem_range.mpr (hlt x hx)
  have := (List.subperm_of_subset hnd hsub).length_le
  simpa using this

/-- The edges into `i` whose source has not yet been popped. -/
def degPred (i : Nat) (order : List Nat) : (Nat × Nat) → Bool :=
  fun e => decide (e.2 = i ∧ e.1 ∉ order)

/-- The Kahn-loop invariant over `(queue, indeg, order)`.  Popped indices
and queued indices are distinct and in range; `indeg i` counts the edges
into `i` from unpopped sources; an index has zero in-degree exactly when
it is popped or queued; popped indices respect every edge and carry no
self-loop. -/
def KahnInv (E : List (Nat × Nat)) (n : Nat) (queue : List Nat) (indeg : Nat → Nat)
    (order : List Nat) : Prop :=
  (order ++ queue).Nodup ∧
  (∀ x ∈ order ++ queue, x < n) ∧
  (∀ i, i < n → indeg i = E.countP (degPred i order)) ∧
  (∀ i, i < n → (indeg i = 0 ↔ i ∈ order ∨ i ∈ queue)) ∧
  order.Pairwise (fun a b => (b, a) ∉ E) ∧
  (∀ i ∈ order, (i, i) ∉ E)

theorem kahn_step (E : List (Nat × Nat)) (n : Nat)
    (hE : ∀ e ∈ E, e.1 < n ∧ e.2 < n)
    (idx : Nat) (rest : List Nat) (indeg : Nat → Nat) (order : List Nat)
    (hinv : KahnInv E n (idx :: rest) indeg order) :
    KahnInv E n (kahnFold rest indeg ((E.filter (fun e => e.1 == idx)).map (·.2))).1
      (kahnFold rest indeg ((E.filter (fun e => e.1 == idx)).map (·.2))).2
      (order ++ [idx]) := by
  obtain ⟨hnd, hbnd, hB, hC, hP, hS⟩ := hinv
  have hidxq : idx ∈ order ++ idx :: rest := by simp
  have hidxn : idx < n := hbnd idx hidxq
  have hndps := List.nodup_append.mp hnd
  have hndo : order.Nodup := hndps.1
  have hidxnotin : idx ∉ order := fun hmem => hndps.2.2 hmem (by simp)
  have hdidx : indeg idx = 0 := (hC idx hidxn).mpr (Or.inr (by simp))
  set targets := (E.filter (fun e => e.1 == idx)).map (·.2) with htargets
  -- what `targets` counts
  have tcount : ∀ k, targets.count k = E.countP (fun e => decide (e.2 = k ∧ e.1 = idx)) := by
    intro k
    rw [htargets, List.count_eq_countP, List.countP_map, List.countP_filter]
    apply List.countP_congr
    intro e _
    simp [Function.comp, and_comm]
  have tmem : ∀ k, k ∈ targets → (∃ e ∈ E, e.2 = k ∧ e.1 = idx) := by
    intro k hk
    rw [htargets] at hk
    obtain ⟨e, he, rfl⟩ := List.mem_map.mp hk
    have := List.mem_filter.mp he
    exact ⟨e, this.1, rfl, by simpa using this.2⟩
  have tbound : ∀ k, k ∈ targets → k < n := by
    intro k hk
    obtain ⟨e, he, h2, _⟩ := tmem k hk
    have := (hE e he).2
    omega
  have hcntle : ∀ k, targets.count k ≤ indeg k := by
    intro k
    by_cases hkn : k < n
    · rw [tcount k, hB k hkn]
      apply List.countP_mono_left
      intro e _ hd
      simp only [decide_eq_true_eq] at hd
      simp only [degPred, decide_eq_true_eq]
      exact ⟨hd.1, by rw [hd.2]; exact hidxnotin⟩
    · have : targets.count k = 0 := by
        rw [List.count_eq_zero]
        intro hk
        exact hkn (tbound k hk)
      omega
  obtain ⟨hd', hq'⟩ := kahnFold_spec targets rest indeg hcntle
  -- push-characterisation facts
  have hpush_lt : ∀ k, (0 < indeg k ∧ targets.count k = indeg k) → k < n := by
    intro k ⟨h1, h2⟩
    have : 0 < targets.count k := by omega
    exact tbound k (List.count_pos_iff.mp this)
  have hpush_notold : ∀ k, (0 < indeg k ∧ targets.count k = indeg k) →
      k ∉ order ∧ k ≠ idx ∧ k ∉ rest := by
    intro k hk
    have hkn := hpush_lt k hk
    have : ¬ (k ∈ order ∨ k ∈ idx :: rest) := by
      intro hmem
      have := (hC k hkn).mpr hmem
      omega
    push_neg at this
    have h2 := this.2
    simp only [List.mem_cons, not_or] at h2
    exact ⟨this.1, h2.1, h2.2⟩
  refine ⟨?_, ?_, ?_, ?_, ?_, ?_⟩
  · -- Nodup
    rw [List.nodup_iff_count_le_one]
    intro k
    have hold := List.nodup_iff_count_le_one.mp hnd k
    rw [List.count_append] at hold
    rw [List.count_append, List.count_append, hq' k]
    by_cases hki : k = idx
    · subst hki
      rw [List.count_cons_self] at hold
      have hsing : List.count k [k] = 1 := by simp
      rw [hsing]
      have hp : ¬(0 < indeg k ∧ targets.count k = indeg k) := by
        rw [hdidx]; omega
      rw [if_neg hp]
      omega
    · rw [List.count_cons_of_ne hki] at hold
      have hsing : List.count k [idx] = 0 := by
        rw [List.count_eq_zero]
        simpa using hki
      rw [hsing]
      by_cases hp : 0 < indeg k ∧ targets.count k = indeg k
      · obtain ⟨hko, _, hkr⟩ := hpush_notold k hp
        rw [if_pos hp]
        have h1 : order.count k = 0 := List.count_eq_zero.mpr hko
        have h2 : rest.count k = 0 := List.count_eq_zero.mpr hkr
        omega
      · rw [if_neg hp]
        omega
  · -- bounds
    intro x hx
    rw [List.mem_append, List.mem_append] at hx
    rcases hx with (hx | hx) | hx
    · exact hbnd x (by simp [hx])
    · simp only [List.mem_singleton] at hx
      subst hx; exact hidxn
    · have hcp : 0 < (kahnFold rest indeg targets).1.count x := List.count_pos_iff.mpr hx
      rw [hq' x] at hcp
      by_cases hp : 0 < indeg x ∧ targets.count x = indeg x
      · exact hpush_lt x hp
      · rw [if_neg hp] at hcp
        have : x ∈ rest := List.count_pos_iff.mp (by omega)
        exact hbnd x (by simp [this])
  · -- degree counting
    intro i hi
    rw [hd' i, hB i hi, tcount i]
    have hsplit := countP_split E (degPred i order) (fun e => decide (e.1 = idx))
    have hone : E.countP (fun e => degPred i order e && decide (e.1 = idx)) =
        E.countP (fun e => decide (e.2 = i ∧ e.1 = idx)) := by
      apply List.countP_congr
      intro e _
      simp only [degPred, Bool.and_eq_true, decide_eq_true_eq]
      constructor
      · rintro ⟨⟨h1, _⟩, h3⟩; exact ⟨h1, h3⟩
      · rintro ⟨h1, h2⟩; exact ⟨⟨h1, by rw [h2]; exact hidxnotin⟩, h2⟩
    have htwo : E.countP (fun e => degPred i order e && !(decide (e.1 = idx))) =
        E.countP (degPred i (order ++ [idx])) := by
      apply List.countP_congr
      intro e _
      simp only [degPred, Bool.and_eq_true, Bool.not_eq_true', decide_eq_true_eq,
        decide_eq_false_iff_not, List.mem_append, List.mem_singleton]
      constructor
      · rintro ⟨⟨h1, h2⟩, h3⟩
        exact ⟨h1, fun hor => hor.elim h2 h3⟩
      · rintro ⟨h1, h2⟩
        exact ⟨⟨h1, fun hmem => h2 (Or.inl hmem)⟩, fun heq => h2 (Or.inr heq)⟩
    rw [hone] at hsplit
    rw [htwo] at hsplit
    omega
  · -- zero-degree characterisation
    intro i hi
    rw [hd' i]
    constructor
    · intro hz
      by_cases h0 : indeg i = 0
      · rcases (hC i hi).mp h0 with hmem | hmem
        · exact Or.inl (by simp [hmem])
        · rcases List.mem_cons.mp hmem with heq | hmem'
          · exact Or.inl (by simp [heq])
          · refine Or.inr (List.count_pos_iff.mp ?_)
            rw [hq' i]
            have : 0 < rest.count i := List.count_pos_iff.mpr hmem'
            omega
      · have hple := hcntle i
        have hp : 0 < indeg i ∧ targets.count i = indeg i := by omega
        refine Or.inr (List.count_pos_iff.mp ?_)
        rw [hq' i, if_pos hp]
        omega
    · intro hmem
      rcases hmem with hmem | hmem
      · rcases List.mem_append.mp hmem with hmem' | hmem'
        · have : indeg i = 0 := (hC i hi).mpr (Or.inl hmem')
          omega
        · simp only [List.mem_singleton] at hmem'
          subst hmem'
          omega
      · have hcp : 0 < (kahnFold rest indeg targets).1.count i := List.count_pos_iff.mpr hmem
        rw [hq' i] at hcp
        by_cases hp : 0 < indeg i ∧ targets.count i = indeg i
        · omega
        · rw [if_neg hp] at hcp
          have : i ∈ idx :: rest := List.mem_cons_of_mem idx (List.count_pos_iff.mp (by omega))
          have : indeg i = 0 := (hC i hi).mpr (Or.inr this)
          omega
  · -- pairwise
    rw [List.pairwise_append]
    refine ⟨hP, List.pairwise_singleton _ _, ?_⟩
    intro a ha b hb
    simp only [List.mem_singleton] at hb
    intro hmem
    rw [hb] at hmem
    have han : a < n := hbnd a (by simp [ha])
    have hza : indeg a = 0 := (hC a han).mpr (Or.inl ha)
    have : 0 < E.countP (degPred a order) := by
      refine List.countP_pos_iff.mpr ⟨(idx, a), hmem, ?_⟩
      simp [degPred, hidxnotin]
    rw [hB a han] at hza
    omega
  · -- no self-loops among popped
    intro i hi
    rcases List.mem_append.mp hi with hmem | hmem
    · exact hS i hmem
    · simp only [List.mem_singleton] at hmem
      subst hmem
      intro hself
      have : 0 < E.countP (degPred i order) := by
        refine List.countP_pos_iff.mpr ⟨(i, i), hself, ?_⟩
        simp [degPred, hidxnotin]
      rw [hB i hidxn] at hdidx
      omega

theorem kahn_spec (E : List (Nat × Nat)) (n : Nat)
    (hE : ∀ e ∈ E, e.1 < n ∧ e.2 < n) :
    ∀ (fuel : Nat) (queue : List Nat) (indeg : Nat → Nat) (order : List Nat),
      KahnInv E n queue indeg order →
      n - order.length ≤ fuel →
      ∃ indeg', KahnInv E n [] indeg'
        (kahn (fun j => (E.filter (fun e => e.1 == j)).map (·.2)) fuel queue indeg order) := by
  intro fuel
  induction fuel with
  | zero =>
      intro queue indeg order hinv hfuel
      have hqnil : queue = [] := by
        obtain ⟨hnd, hbnd, _, _, _, _⟩ := hinv
        have := length_le_of_nodup_lt n (order ++ queue) hnd hbnd
        rw [List.length_append] at this
        have : queue.length = 0 := by omega
        exact List.length_eq_zero.mp this
      subst hqnil
      exact ⟨indeg, hinv⟩
  | succ fuel ih =>
      intro queue indeg order hinv hfuel
      match queue with
      | [] => exact ⟨indeg, hinv⟩
      | idx :: rest =>
          have hstep := kahn_step E n hE idx rest indeg order hinv
          have hlen : n - (order ++ [idx]).length ≤ fuel := by
            rw [List.length_append]
            simp only [List.length_singleton]
            omega
          exact ih _ _ _ hstep hlen

theorem kahn_init (E : List (Nat × Nat)) (n : Nat) :
    KahnInv E n (((List.range n).filter
        (fun i => (E.countP (fun e => e.2 == i)) == 0)).reverse)
      (fun i => E.countP (fun e => e.2 == i)) [] := by
  have hq0 : ∀ i, i ∈ ((List.range n).filter
      (fun i => (E.countP (fun e => e.2 == i)) == 0)).reverse ↔
      (i < n ∧ E.countP (fun e => e.2 == i) = 0) := by
    intro i
    rw [List.mem_reverse, List.mem_filter, List.mem_range]
    simp
  refine ⟨?_, ?_, ?_, ?_, List.Pairwise.nil, by simp⟩
  · simp only [List.nil_append]
    exact List.nodup_reverse.mpr ((List.nodup_range n).filter _)
  · intro x hx
    rw [List.nil_append] at hx
    exact ((hq0 x).mp hx).1
  · intro i _
    apply List.countP_congr
    intro e _
    simp [degPred]
  · intro i hi
    constructor
    · intro hz
      exact Or.inr ((hq0 i).mpr ⟨hi, hz⟩)
    · rintro (h | h)
      · cases h
      · exact ((hq0 i).mp h).2

/-- Edge membership in terms of the steps: `(j, i) ∈ E` iff step `i` has a
dependency name resolving (via `nameToIdx`, last-wins) to `j`. -/
theorem edge_mem (steps : List FormulaStep) (E : List (Nat × Nat))
    (hE : resolveEdges steps (depPairs 0 steps) = .ok E) (j i : Nat) :
    ((j, i) ∈ E ↔ ∃ d t, steps[i]? = some t ∧ d ∈ t.depends_on ∧
      nameToIdx steps d = some j) := by
  rw [resolveEdges_ok_mem steps _ E hE j i]
  constructor
  · rintro ⟨d, hd, hn⟩
    obtain ⟨m, t, hi, hg, hdep⟩ := (depPairs_mem steps 0 d i).mp hd
    refine ⟨d, t, ?_, hdep, hn⟩
    rw [hi]
    simpa using hg
  · rintro ⟨d, t, hg, hdep, hn⟩
    exact ⟨d, (depPairs_mem steps 0 d i).mpr ⟨i, t, by omega, hg, hdep⟩, hn⟩

theorem edge_to_depEdge (steps : List FormulaStep) (E : List (Nat × Nat))
    (hE : resolveEdges steps (depPairs 0 steps) = .ok E) (j i : Nat)
    (hmem : (j, i) ∈ E) : depEdge steps j i := by
  obtain ⟨d, t, hg, hdep, hn⟩ := (edge_mem steps E hE j i).mp hmem
  obtain ⟨s, hs, hname⟩ := nameToIdx_some steps d j hn
  exact ⟨s, t, hs, hg, by rw [hname]; exact hdep⟩

theorem depEdge_to_edge (steps : List FormulaStep) (E : List (Nat × Nat))
    (hE : resolveEdges steps (depPairs 0 steps) = .ok E)
    (hnames : (steps.map (·.name)).Nodup) (j i : Nat)
    (hd : depEdge steps j i) : (j, i) ∈ E := by
  obtain ⟨s, t, hs, ht, hdep⟩ := hd
  exact (edge_mem steps E hE j i).mpr
    ⟨s.name, t, ht, hdep, nameToIdx_of_nodup steps hnames j s hs⟩

theorem range_map_getD (l : List FormulaStep) :
    (List.range l.length).map (fun i => l.getD i default) = l := by
  apply List.ext_getElem
  · simp
  · intro i h1 h2
    simp only [List.getElem_map, List.getElem_range]
    rw [List.getD_eq_getElem l default h2]

theorem pos_mono (E : List (Nat × Nat)) (out : List Nat) (hnd : out.Nodup)
    (hpw : out.Pairwise (fun a b => (b, a) ∉ E)) (hself : ∀ i ∈ out, (i, i) ∉ E)
    (j i : Nat) (hmem : (j, i) ∈ E) (hj : j ∈ out) (hi : i ∈ out) :
    out.indexOf j < out.indexOf i := by
  have hj' := List.indexOf_lt_length.mpr hj
  have hi' := List.indexOf_lt_length.mpr hi
  rcases Nat.lt_trichotomy (out.indexOf j) (out.indexOf i) with h | h | h
  · exact h
  · exfalso
    have e1 : out.get ⟨out.indexOf j, hj'⟩ = j := List.getElem_indexOf hj'
    have e2 : out.get ⟨out.indexOf i, hi'⟩ = i := List.getElem_indexOf hi'
    have : j = i := by
      rw [← e1, ← e2]
      exact congrArg out.get (Fin.ext h)
    subst this
    exact hself j hj hmem
  · exfalso
    have hpair := (List.pairwise_iff_getElem.mp hpw) (out.indexOf i) (out.indexOf j) hi' hj' h
    rw [List.getElem_indexOf hi', List.getElem_indexOf hj'] at hpair
    exact hpair hmem

theorem transGen_pos (E : List (Nat × Nat)) (out : List Nat) (hnd : out.Nodup)
    (hpw : out.Pairwise (fun a b => (b, a) ∉ E)) (hself : ∀ i ∈ out, (i, i) ∉ E)
    (hmemall : ∀ e ∈ E, e.1 ∈ out ∧ e.2 ∈ out) :
    ∀ x y, Relation.TransGen (fun a b => (a, b) ∈ E) x y →
      out.indexOf x < out.indexOf y := by
  intro x y h
  induction h with
  | single h1 =>
      exact pos_mono E out hnd hpw hself _ _ h1 (hmemall _ h1).1 (hmemall _ h1).2
  | tail h1 h2 ih =>
      exact Nat.lt_trans ih
        (pos_mono E out hnd hpw hself _ _ h2 (hmemall _ h2).1 (hmemall _ h2).2)

/-- When the queue stalls with unpopped indices, following unpopped
predecessors forever pigeonholes into a cycle; under acyclicity every
index is popped. -/
theorem kahn_all_popped (steps : List FormulaStep) (E : List (Nat × Nat)) (n : Nat)
    (hE : resolveEdges steps (depPairs 0 steps) = .ok E)
    (hEb : ∀ e ∈ E, e.1 < n ∧ e.2 < n)
    (out : List Nat)
    (hstalled : ∀ i, i < n → i ∉ out → ∃ j, (j, i) ∈ E ∧ j ∉ out)
    (hacyc : ∀ x, ¬ Relation.TransGen (depEdge steps) x x) :
    ∀ i, i < n → i ∈ out := by
  by_contra hcon
  push_neg at hcon
  obtain ⟨i0, hi0n, hi0out⟩ := hcon
  have hstep : ∀ x, (x < n ∧ x ∉ out) → ∃ y, (y < n ∧ y ∉ out) ∧ (y, x) ∈ E := by
    intro x hx
    obtain ⟨j, hj1, hj2⟩ := hstalled x hx.1 hx.2
    exact ⟨j, ⟨(hEb _ hj1).1, hj2⟩, hj1⟩
  let F : Nat → Nat := fun k => Nat.rec (motive := fun _ => Nat) i0
    (fun _ prev => if h : prev < n ∧ prev ∉ out then (hstep prev h).choose else prev) k
  have hFP : ∀ k, F k < n ∧ F k ∉ out := by
    intro k
    induction k with
    | zero => exact ⟨hi0n, hi0out⟩
    | succ k ih =>
        show (if h : F k < n ∧ F k ∉ out then (hstep (F k) h).choose else F k) < n ∧
          (if h : F k < n ∧ F k ∉ out then (hstep (F k) h).choose else F k) ∉ out
        rw [dif_pos ih]
        exact (hstep (F k) ih).choose_spec.1
  have hFE : ∀ k, (F (k + 1), F k) ∈ E := by
    intro k
    have ih := hFP k
    show ((if h : F k < n ∧ F k ∉ out then (hstep (F k) h).choose else F k), F k) ∈ E
    rw [dif_pos ih]
    exact (hstep (F k) ih).choose_spec.2
  have hchain : ∀ m k, Relation.TransGen (fun a b => (a, b) ∈ E) (F (k + m + 1)) (F k) := by
    intro m
    induction m with
    | zero => intro k; exact Relation.TransGen.single (hFE k)
    | succ m ih =>
        intro k
        have h1 : (F (k + m + 2), F (k + m + 1)) ∈ E := hFE (k + m + 1)
        have h2 := Relation.TransGen.head h1 (ih k)
        have heq : k + (m + 1) + 1 = k + m + 2 := by omega
        rw [heq]
        exact h2
  have hmaps : ∀ k ∈ Finset.range (n + 1), F k ∈ Finset.range n := by
    intro k _
    exact Finset.mem_range.mpr (hFP k).1
  have hcard : (Finset.range n).card < (Finset.range (n + 1)).card := by simp
  obtain ⟨a, ha, b, hb, hab, heq⟩ :=
    Finset.exists_ne_map_eq_of_card_lt_of_maps_to hcard hmaps
  have hcycle : ∀ a b, a < b → F a = F b → False := by
    intro a b hab heq
    have hb1 : a + (b - a - 1) + 1 = b := by omega
    have hch := hchain (b - a - 1) a
    rw [hb1] at hch
    rw [heq] at hch
    have hmono : Relation.TransGen (depEdge steps) (F b) (F b) :=
      Relation.TransGen.mono (fun x y hxy => edge_to_depEdge steps E hE x y hxy) hch
    exact hacyc (F b) hmono
  rcases Nat.lt_trichotomy a b with h | h | h
  · exact hcycle a b h heq
  · exact hab h
  · exact hcycle b a h heq.symm

/-- **C8 (amended).**  For every `FormulaDef` whose step names are pairwise
distinct: if every `depends_on` entry names an existing step and the
dependency graph is acyclic, `topo_sort` returns a permutation of `steps`
in which no step precedes one it depends on (so every step appears after
every step it depends on); and whenever the dependency graph has a cycle,
`topo_sort` returns an error.  (With duplicate names a dependency resolves
to the *last* step carrying the name and both halves can fail — see the
counterexample.) -/
theorem topo_sort_correct (f : FormulaDef)
    (hnames : (f.steps.map (·.name)).Nodup) :
    ((∀ x, ¬ Relation.TransGen (depEdge f.steps) x x) →
      (∀ t ∈ f.steps, ∀ d ∈ t.depends_on, ∃ s ∈ f.steps, s.name = d) →
      ∃ out, topo_sort f = .ok out ∧ out.Perm f.steps ∧
        out.Pairwise (fun a b => b.name ∉ a.depends_on)) ∧
    ((∃ x, Relation.TransGen (depEdge f.steps) x x) →
      ∃ msg, topo_sort f = .error msg) := by
  constructor
  · intro hacyc hwf
    have hallsome : ∀ p ∈ depPairs 0 f.steps, (nameToIdx f.steps p.1).isSome := by
      intro p hp
      obtain ⟨d, i⟩ := p
      obtain ⟨m, t, hi, hg, hdep⟩ := (depPairs_mem f.steps 0 d i).mp hp
      obtain ⟨s, hsmem, hsname⟩ := hwf t (List.getElem?_mem hg) d hdep
      exact nameToIdx_isSome f.steps d s hsmem hsname
    obtain ⟨E, hE⟩ := resolveEdges_isOk f.steps _ hallsome
    have hEb : ∀ e ∈ E, e.1 < f.steps.length ∧ e.2 < f.steps.length :=
      resolveEdges_bounds f.steps E hE
    obtain ⟨indeg', hfin⟩ := kahn_spec E f.steps.length hEb f.steps.length
      _ _ [] (kahn_init E f.steps.length) (by simp)
    set out := kahn (fun j => (E.filter (fun e => e.1 == j)).map (·.2)) f.steps.length
        (((List.range f.steps.length).filter
          (fun i => (E.countP (fun e => e.2 == i)) == 0)).reverse)
        (fun i => E.countP (fun e => e.2 == i)) [] with hout
    obtain ⟨hnd, hbnd, hB, hC, hpw, hself⟩ := hfin
    have hnd' : out.Nodup := by simpa using hnd
    have hbnd' : ∀ x ∈ out, x < f.steps.length := fun x hx => hbnd x (by simpa using hx)
    have hstalled : ∀ i, i < f.steps.length → i ∉ out → ∃ j, (j, i) ∈ E ∧ j ∉ out := by
      intro i hi hnot
      have hz : ¬ (indeg' i = 0) := by
        intro h0
        rcases (hC i hi).mp h0 with h | h
        · exact hnot h
        · cases h
      rw [hB i hi] at hz
      have hpos : 0 < E.countP (degPred i out) := Nat.pos_of_ne_zero hz
      obtain ⟨e, hmem, hpe⟩ := List.countP_pos_iff.mp hpos
      obtain ⟨e1, e2⟩ := e
      simp only [degPred, decide_eq_true_eq] at hpe
      refine ⟨e1, ?_, hpe.2⟩
      have h2 : e2 = i := hpe.1
      rw [← h2]
      exact hmem
    have hcomp : ∀ i, i < f.steps.length → i ∈ out :=
      kahn_all_popped f.steps E f.steps.length hE hEb out hstalled hacyc
    have hperm : out.Perm (List.range f.steps.length) := by
      rw [List.perm_ext_iff_of_nodup hnd' (List.nodup_range _)]
      intro a
      rw [List.mem_range]
      exact ⟨fun h => hbnd' a h, fun h => hcomp a h⟩
    have hlen : out.length = f.steps.length := by
      have := hperm.length_eq
      simpa using this
    have hts : topo_sort f =
        (if out.length = f.steps.length
         then .ok (out.map (fun i => f.steps.getD i default))
         else .error "cycle detected in formula steps") := by
      rw [hout]
      unfold topo_sort
      rw [hE]
    refine ⟨out.map (fun i => f.steps.getD i default), ?_, ?_, ?_⟩
    · rw [hts, if_pos hlen]
    · have hm := hperm.map (fun i => f.steps.getD i default)
      rw [range_map_getD] at hm
      exact hm
    · rw [List.pairwise_map]
      apply List.Pairwise.imp_of_mem ?_ hpw
      intro a b ha hb hR hdep
      have han : a < f.steps.length := hbnd' a ha
      have hbn : b < f.steps.length := hbnd' b hb
      have hga : f.steps[a]? = some (f.steps.getD a default) := by
        rw [List.getD_eq_getElem f.steps default han]
        exact List.getElem?_eq_getElem han
      have hgb : f.steps[b]? = some (f.steps.getD b default) := by
        rw [List.getD_eq_getElem f.steps default hbn]
        exact List.getElem?_eq_getElem hbn
      have hdedge : depEdge f.steps b a :=
        ⟨f.steps.getD b default, f.steps.getD a default, hgb, hga, hdep⟩
      exact hR (depEdge_to_edge f.steps E hE hnames b a hdedge)
  · rintro ⟨x, hx⟩
    cases hres : resolveEdges f.steps (depPairs 0 f.steps) with
    | error msg =>
        refine ⟨msg, ?_⟩
        unfold topo_sort
        rw [hres]
    | ok E =>
        have hEb : ∀ e ∈ E, e.1 < f.steps.length ∧ e.2 < f.steps.length :=
          resolveEdges_bounds f.steps E hres
        obtain ⟨indeg', hfin⟩ := kahn_spec E f.steps.length hEb f.steps.length
          _ _ [] (kahn_init E f.steps.length) (by simp)
        set out := kahn (fun j => (E.filter (fun e => e.1 == j)).map (·.2)) f.steps.length
            (((List.range f.steps.length).filter
              (fun i => (E.countP (fun e => e.2 == i)) == 0)).reverse)
            (fun i => E.countP (fun e => e.2 == i)) [] with hout
        obtain ⟨hnd, hbnd, hB, hC, hpw, hself⟩ := hfin
        have hnd' : out.Nodup := by simpa using hnd
        have hbnd' : ∀ x ∈ out, x < f.steps.length := fun y hy => hbnd y (by simpa using hy)
        have hts : topo_sort f =
            (if out.length = f.steps.length
             then .ok (out.map (fun i => f.steps.getD i default))
             else .error "cycle detected in formula steps") := by
          rw [hout]
          unfold topo_sort
          rw [hres]
        by_cases hlen : out.length = f.steps.length
        · exfalso
          have hsub : out ⊆ List.range f.steps.length := fun y hy =>
            List.mem_range.mpr (hbnd' y hy)
          have hperm : out.Perm (List.range f.steps.length) :=
            (List.subperm_of_subset hnd' hsub).perm_of_length_le (by simpa using hlen.ge)
          have hcomp : ∀ i, i < f.steps.length → i ∈ out := by
            intro i hi
            exact hperm.mem_iff.mpr (List.mem_range.mpr hi)
          have hmemall : ∀ e ∈ E, e.1 ∈ out ∧ e.2 ∈ out := by
            intro e he
            exact ⟨hcomp _ (hEb e he).1, hcomp _ (hEb e he).2⟩
          have hx' : Relation.TransGen (fun a b => (a, b) ∈ E) x x :=
            Relation.TransGen.mono
              (fun u v huv => depEdge_to_edge f.steps E hres hnames u v huv) hx
          have := transGen_pos E out hnd' hpw hself hmemall x x hx'
          omega
        · exact ⟨"cycle detected in formula steps", by rw [hts, if_neg hlen]⟩

theorem transGen_irrefl_of_lt (r : Nat → Nat → Prop) (h : ∀ a b, r a b → a < b) :
    ∀ x, ¬ Relation.TransGen r x x := by
  intro x hx
  have hmono : ∀ a b, Relation.TransGen r a b → a < b := by
    intro a b hab
    induction hab with
    | single h1 => exact h _ _ h1
    | tail _ h2 ih => exact Nat.lt_trans ih (h _ _ h2)
  exact absurd (hmono x x hx) (Nat.lt_irrefl x)

/-- An acyclic two-step formula (`b` depends on `a`) for the witness. -/
def formulaWitnessAcyclic : FormulaDef :=
  { name := "w", description := none, vars := [],
    steps := [{ name := "a", command := "c", args := [], depends_on := [] },
              { name := "b", command := "c", args := [], depends_on := ["a"] }] }

/-- A cyclic two-step formula (`a` and `b` depend on each other) for the
witness. -/
def formulaWitnessCyclic : FormulaDef :=
  { name := "w", description := none, vars := [],
    steps := [{ name := "a", command := "c", args := [], depends_on := ["b"] },
              { name := "b", command := "c", args := [], depends_on := ["a"] }] }

/-- Witness for `topo_sort_correct`: both halves applied at concrete
formulas. -/
theorem topo_sort_correct_witness :
    (∃ out, topo_sort formulaWitnessAcyclic = .ok out ∧
      out.Perm formulaWitnessAcyclic.steps ∧
      out.Pairwise (fun a b => b.name ∉ a.depends_on)) ∧
    (∃ msg, topo_sort formulaWitnessCyclic = .error msg) := by
  constructor
  · have hacyc : ∀ x, ¬ Relation.TransGen (depEdge formulaWitnessAcyclic.steps) x x := by
      apply transGen_irrefl_of_lt
      rintro a b ⟨s, t, hs, ht, hdep⟩
      rcases b with _ | (_ | b)
      · have h0 : some { name := "a", command := "c", args := [], depends_on := ([] : List String) } = some t := ht
        injection h0 with h0
        subst h0
        simp at hdep
      · have ht1 : some { name := "b", command := "c", args := [], depends_on := ["a"] } = some t := ht
        injection ht1 with ht1
        subst ht1
        rcases a with _ | (_ | a)
        · exact Nat.zero_lt_one
        · have h1 : some { name := "b", command := "c", args := [], depends_on := ["a"] } = some s := hs
          injection h1 with h1
          subst h1
          exact absurd hdep (by decide)
        · have h2 : (none : Option FormulaStep) = some s := hs
          cases h2
      · have h3 : (none : Option FormulaStep) = some t := ht
        cases h3
    exact (topo_sort_correct formulaWitnessAcyclic (by decide)).1 hacyc (by decide)
  · have hedge01 : depEdge formulaWitnessCyclic.steps 0 1 :=
      ⟨{ name := "a", command := "c", args := [], depends_on := ["b"] },
       { name := "b", command := "c", args := [], depends_on := ["a"] },
       rfl, rfl, by decide⟩
    have hedge10 : depEdge formulaWitnessCyclic.steps 1 0 :=
      ⟨{ name := "b", command := "c", args := [], depends_on := ["a"] },
       { name := "a", command := "c", args := [], depends_on := ["b"] },
       rfl, rfl, by decide⟩
    exact (topo_sort_correct formulaWitnessCyclic (by decide)).2
      ⟨0, Relation.TransGen.head hedge01 (Relation.TransGen.single hedge10)⟩

end GasTown
